import Mathlib

/-!
Verification development for the heap-type collection and index-assignment
pass of `src/ir/module-utils.cpp` (wasm::ModuleUtils).

Heap types are interned, compared by identity, so we model them as opaque
natural-number identifiers.  The type graph (children, supertypes, recursion
groups) lives in an abstract environment `TypeEnv`, mirroring the interned
type arena the C++ code navigates through `HeapType` accessors.
-/

namespace ModuleUtils

/-- Opaque identifier of an interned heap type (`wasm::HeapType`). -/
abbrev HeapType := Nat

/-- Opaque identifier of a recursion group (`wasm::RecGroup`). -/
abbrev RecGroupId := Nat

/-- A value type (`wasm::Type`): none, unreachable, a non-reference basic
type, a reference to a heap type, or a tuple. -/
inductive ValType where
  | none : ValType
  | unreachable : ValType
  | nonRef : ValType
  | ref (ht : HeapType) : ValType
  | tuple (ts : List ValType) : ValType

/-- Heap-type children of a value type (`Type::getHeapTypeChildren`):
the heap types its components refer to, one level down. -/
def ValType.heapTypeChildren : ValType → List HeapType
  | .ref ht => [ht]
  | .tuple ts => ts.attach.flatMap (fun t => heapTypeChildren t.1)
  | _ => []
termination_by v => sizeOf v
decreasing_by
  have := List.sizeOf_lt_of_mem t.2
  simp only [ValType.tuple.sizeOf_spec]
  omega

/-- Whether a value type is a reference (`Type::isRef`). -/
def ValType.isRef : ValType → Bool
  | .ref _ => true
  | _ => false

/-- The heap type of a reference value type (`Type::getHeapType`), when the
type is a reference. -/
def ValType.getHeapType : ValType → Option HeapType
  | .ref ht => some ht
  | _ => Option.none

/-- The interned type arena: for each heap-type identifier, whether it is
basic, its structural children (`HeapType::getHeapTypeChildren`), its
referenced heap types (`HeapType::getReferencedHeapTypes`), its optional
supertype (`HeapType::getSuperType`), and its recursion group
(`HeapType::getRecGroup`, with the group resolved to its member list in
inherent order).  `tupleSig` interns the signature heap type
`Signature(Type::none, tuple)` built for tuple-typed control flow.
`numTypes` bounds the identifiers of the (finite) arena. -/
structure TypeEnv where
  isBasic : HeapType → Bool
  children : HeapType → List HeapType
  refd : HeapType → List HeapType
  superOf : HeapType → Option HeapType
  groupOf : HeapType → RecGroupId
  groupMembers : RecGroupId → List HeapType
  tupleSig : List ValType → HeapType
  numTypes : Nat

/-- Well-formedness of the interned arena, implicit in the C++ code: every
non-basic type has bounded, coherent neighbours; supertypes and group
members are never basic; a type belongs to its own recursion group, whose
member list has no duplicates and whose members all map back to it; the
referenced heap types are among the structural children and the supertype. -/
def TypeEnv.WF (env : TypeEnv) : Prop :=
  ∀ t, t < env.numTypes → env.isBasic t = false →
    (∀ c ∈ env.children t, c < env.numTypes) ∧
    (∀ s, env.superOf t = some s → s < env.numTypes ∧ env.isBasic s = false) ∧
    (∀ m ∈ env.groupMembers (env.groupOf t),
      m < env.numTypes ∧ env.isBasic m = false ∧ env.groupOf m = env.groupOf t) ∧
    t ∈ env.groupMembers (env.groupOf t) ∧
    (env.groupMembers (env.groupOf t)).Nodup ∧
    (∀ r ∈ env.refd t, env.isBasic r = false →
      r ∈ env.children t ∨ env.superOf t = some r)

/-- The ordered frequency map `Counts` (an `InsertOrderedMap<HeapType,
size_t>`): association list in insertion order, keys unique. -/
abbrev Counts := List (HeapType × Nat)

/-- Keys of a frequency map, in insertion order. -/
def keysOf (c : Counts) : List HeapType := c.map (fun p => p.1)

/-- Whether a heap type is present in the map (`counts.count(t) != 0`). -/
def containsKey (c : Counts) (t : HeapType) : Bool := (c.lookup t).isSome

/-- The map after `(*this)[type]++`: increment the existing entry or append
a fresh entry with count 1. -/
def bump (c : Counts) (t : HeapType) : Counts :=
  if containsKey c t then
    c.map (fun p => if p.1 = t then (p.1, p.2 + 1) else p)
  else c ++ [(t, 1)]

/-- `Counts::note(HeapType)`: count the type unless it is basic. -/
def note (env : TypeEnv) (c : Counts) (t : HeapType) : Counts :=
  if env.isBasic t then c else bump c t

/-- `Counts::note(Type)`: note every heap-type child of a value type. -/
def noteV (env : TypeEnv) (c : Counts) (v : ValType) : Counts :=
  v.heapTypeChildren.foldl (note env) c

/-- `Counts::include`: ensure a non-basic type is present without
increasing its count (`(*this)[type]` default-constructs a zero entry). -/
def incl (env : TypeEnv) (c : Counts) (t : HeapType) : Counts :=
  if env.isBasic t then c
  else if containsKey c t then c else c ++ [(t, 0)]

/-- The merge step `counts[sig] += count` used to fold the per-function
maps into the module map. -/
def addCount (c : Counts) (t : HeapType) (k : Nat) : Counts :=
  if containsKey c t then
    c.map (fun p => if p.1 = t then (p.1, p.2 + k) else p)
  else c ++ [(t, k)]

/-- Variants of the `BrOn` cast-branch instruction relevant to the scanner. -/
inductive BrOnOp where
  | brOnCast : BrOnOp
  | brOnCastFail : BrOnOp
  | otherOp : BrOnOp
deriving DecidableEq

/-- One IR node as seen by `CodeScanner::visitExpression`: each constructor
carries exactly the fields the scanner inspects.  A walked expression tree
is represented by the list of its nodes in the visit order of the
post-order walker. -/
inductive Expr where
  | callIndirect (heapType : HeapType) : Expr
  | refNull (type : ValType) : Expr
  | rttCanon (heapType : HeapType) : Expr
  | rttSub (heapType : HeapType) : Expr
  | structNew (hasRtt : Bool) (type : ValType) : Expr
  | arrayNew (hasRtt : Bool) (type : ValType) : Expr
  | arrayInit (hasRtt : Bool) (type : ValType) : Expr
  | refCast (hasRtt : Bool) (intendedType : HeapType) : Expr
  | refTest (hasRtt : Bool) (intendedType : HeapType) : Expr
  | brOn (op : BrOnOp) (hasRtt : Bool) (intendedType : HeapType) : Expr
  | structGet (refType : ValType) : Expr
  | structSet (refType : ValType) : Expr
  | localGet (type : ValType) : Expr
  | localSet (type : ValType) : Expr
  | controlFlow (type : ValType) : Expr
  | otherExpr : Expr

/-- `CodeScanner::handleMake`: note the constructed heap type when the
node carries no RTT and is not unreachable. -/
def handleMake (env : TypeEnv) (c : Counts) (hasRtt : Bool) (t : ValType) :
    Counts :=
  if hasRtt then c
  else match t with
    | .unreachable => c
    | t =>
      match t.getHeapType with
      | some ht => note env c ht
      | Option.none => c

/-- `CodeScanner::handleCast`: note the intended heap type when the cast
carries no RTT. -/
def handleCast (env : TypeEnv) (c : Counts) (hasRtt : Bool)
    (intendedType : HeapType) : Counts :=
  if hasRtt then c else note env c intendedType

/-- `CodeScanner::visitExpression`: the per-node dispatch of the scanner. -/
def visitExpression (env : TypeEnv) (c : Counts) (e : Expr) : Counts :=
  match e with
  | .callIndirect ht => note env c ht
  | .refNull t => noteV env c t
  | .rttCanon ht => note env c ht
  | .rttSub ht => note env c ht
  | .structNew hasRtt t => handleMake env c hasRtt t
  | .arrayNew hasRtt t => handleMake env c hasRtt t
  | .arrayInit hasRtt t => handleMake env c hasRtt t
  | .refCast hasRtt it => handleCast env c hasRtt it
  | .refTest hasRtt it => handleCast env c hasRtt it
  | .brOn op hasRtt it =>
    if op = .brOnCast ∨ op = .brOnCastFail then handleCast env c hasRtt it
    else c
  | .structGet rt => noteV env c rt
  | .structSet rt => noteV env c rt
  | .localGet t =>
    if t.isRef then
      match t.getHeapType with
      | some ht => incl env c ht
      | Option.none => c
    else c
  | .localSet t =>
    if t.isRef then
      match t.getHeapType with
      | some ht => incl env c ht
      | Option.none => c
    else c
  | .controlFlow t =>
    match t with
    | .tuple ts => note env c (env.tupleSig ts)
    | t => noteV env c t
  | .otherExpr => c

/-- A function of the module: its signature heap type, declared local
variable types, import flag, and (for non-imported functions) the body as
the node list of the walk. -/
structure Func where
  type : HeapType
  vars : List ValType
  imported : Bool
  body : List Expr

/-- The read-only module input: module-level code (walked by
`walkModuleCode`), tag signature heap types, table types, element segment
types, and functions in declaration order. -/
structure Module where
  moduleCode : List Expr
  tags : List HeapType
  tables : List ValType
  elementSegments : List ValType
  functions : List Func

/-- The per-function analysis body: note the signature type and the local
variable types, then scan the body when the function is not imported. -/
def scanFunction (env : TypeEnv) (f : Func) : Counts :=
  let c := note env [] f.type
  let c := f.vars.foldl (noteV env) c
  if f.imported then c else f.body.foldl (visitExpression env) c

/-- The pre-closure part of `getHeapTypeCounts`: scan module-level code,
tags, tables, element segments, then merge the per-function maps into the
module map in function declaration order (`counts[sig] += count`). -/
def scanModule (env : TypeEnv) (m : Module) : Counts :=
  let c := m.moduleCode.foldl (visitExpression env) []
  let c := m.tags.foldl (note env) c
  let c := m.tables.foldl (noteV env) c
  let c := m.elementSegments.foldl (noteV env) c
  m.functions.foldl
    (fun c f => (scanFunction env f).foldl (fun c p => addCount c p.1 p.2) c) c

/-- Insertion into the `InsertOrderedSet` work list `newTypes`: append
unless already present. -/
def insertQueue (q : List HeapType) (t : HeapType) : List HeapType :=
  if t ∈ q then q else q ++ [t]

/-- State of the saturation loop of `getHeapTypeCounts`: the work list
`newTypes` (popped from the front, in insertion order), the frequency map,
and the processed recursion groups `includedGroups`. -/
structure ClosureState where
  queue : List HeapType
  counts : Counts
  includedGroups : List RecGroupId

/-- The body of the children loop of the saturation step: skip basic
children, enqueue a child that is not yet counted, and note it. -/
def childStep (env : TypeEnv) (s : List HeapType × Counts) (child : HeapType) :
    List HeapType × Counts :=
  if env.isBasic child then s
  else
    let q := if containsKey s.2 child then s.1 else insertQueue s.1 child
    (q, note env s.2 child)

/-- The children loop of the saturation step. -/
def childPhase (env : TypeEnv) (t : HeapType) (s : List HeapType × Counts) :
    List HeapType × Counts :=
  (env.children t).foldl (childStep env) s

/-- The supertype handling of the saturation step: enqueue and include a
not-yet-present supertype (include, not note: see the FIXME in the
source). -/
def superPhase (env : TypeEnv) (t : HeapType) (s : List HeapType × Counts) :
    List HeapType × Counts :=
  match env.superOf t with
  | some sup =>
    if containsKey s.2 sup then s
    else (insertQueue s.1 sup, incl env s.2 sup)
  | Option.none => s

/-- The body of the recursion-group loop: enqueue and include a member
that is not yet present. -/
def groupStep (env : TypeEnv) (s : List HeapType × Counts) (ty : HeapType) :
    List HeapType × Counts :=
  if containsKey s.2 ty then s
  else (insertQueue s.1 ty, incl env s.2 ty)

/-- The recursion-group handling of the saturation step: when the group of
the popped type has not been processed yet, mark it processed and include
all its missing members. -/
def groupPhase (env : TypeEnv) (t : HeapType) (s : List HeapType × Counts)
    (groups : List RecGroupId) : ClosureState :=
  let g := env.groupOf t
  if g ∈ groups then ⟨s.1, s.2, groups⟩
  else
    let s3 := (env.groupMembers g).foldl (groupStep env) s
    ⟨s3.1, s3.2, groups ++ [g]⟩

/-- One iteration of the saturation loop on a popped type `t`: note the
non-basic structural children (enqueuing fresh ones), include a fresh
supertype, and include all fresh members of a not-yet-processed recursion
group. -/
def closureStep (env : TypeEnv) (t : HeapType) (rest : List HeapType)
    (counts : Counts) (groups : List RecGroupId) : ClosureState :=
  groupPhase env t (superPhase env t (childPhase env t (rest, counts))) groups

/-- The saturation loop (`while (!newTypes.empty())`), with explicit fuel
standing in for the termination argument of the C++ loop; `none` means the
fuel was insufficient, which cannot happen on a well-formed arena. -/
def closureLoop (env : TypeEnv) : Nat → ClosureState → Option Counts
  | 0, st => match st.queue with | [] => some st.counts | _ => Option.none
  | fuel + 1, st =>
    match st.queue with
    | [] => some st.counts
    | t :: rest =>
      closureLoop env fuel (closureStep env t rest st.counts st.includedGroups)

/-- `getHeapTypeCounts`: scan the module, then saturate the frequency map
over structural children, supertypes, and recursion-group members. -/
def getHeapTypeCounts (env : TypeEnv) (m : Module) : Option Counts :=
  let counts := scanModule env m
  let queue := keysOf counts
  closureLoop env (queue.length + env.numTypes + 1) ⟨queue, counts, []⟩

/-- `collectHeapTypes`: the saturated universe in insertion order. -/
def collectHeapTypes (env : TypeEnv) (m : Module) : Option (List HeapType) :=
  (getHeapTypeCounts env m).map keysOf

/-- The active type system (`getTypeSystem()`), passed as a parameter. -/
inductive TypeSystem where
  | Equirecursive : TypeSystem
  | Isorecursive : TypeSystem
  | Nominal : TypeSystem
deriving DecidableEq

/-- Exact value of the `double useCount`: sums of counts are integers and
the only division is by a group size, so every value is an exact fraction
`num / den`; comparisons are modelled exactly (by cross-multiplication)
rather than through floating-point rounding. -/
structure Frac where
  num : Nat
  den : Nat
deriving DecidableEq

/-- Value equality of two fractions (the `useCount != other.useCount`
test). -/
def Frac.veq (a b : Frac) : Bool := a.num * b.den == b.num * a.den

/-- Value order of two fractions (the `useCount < other.useCount` test). -/
def Frac.vlt (a b : Frac) : Bool := decide (a.num * b.den < b.num * a.den)

/-- Adding an integral count to a fraction (`useCount += counts.at(type)`,
performed while the value is still the raw sum). -/
def Frac.addNat (a : Frac) (k : Nat) : Frac := ⟨a.num + k * a.den, a.den⟩

/-- Dividing by the group size (`info.useCount /= group.size()`). -/
def Frac.divNat (a : Frac) (n : Nat) : Frac := ⟨a.num, a.den * n⟩

/-- Per-recursion-group sorting data (`GroupInfo`): insertion index,
(average) use count, predecessor set, and its sorted version. -/
structure GroupInfo where
  index : Nat
  useCount : Frac
  preds : List RecGroupId
  sortedPreds : List RecGroupId
deriving DecidableEq

/-- `GroupInfo::operator<`: order by use count, breaking value ties by
reverse insertion index. -/
def infoLt (a b : GroupInfo) : Bool :=
  if Frac.veq a.useCount b.useCount then decide (a.index > b.index)
  else Frac.vlt a.useCount b.useCount

/-- The map from recursion group to its `GroupInfo`, in insertion order. -/
abbrev GroupInfoMap := List (RecGroupId × GroupInfo)

/-- Lookup of a group's info (`groupInfos.at(group)`); the default is never
reached on the groups the pass actually sorts. -/
def infoOf (m : GroupInfoMap) (g : RecGroupId) : GroupInfo :=
  (m.lookup g).getD ⟨0, ⟨0, 1⟩, [], []⟩

/-- `GroupInfoMap::sort`: sort group identifiers ascending with respect to
`GroupInfo::operator<` on their infos (`std::sort`; the order is total on
distinct entries, whose insertion indices differ, so any comparison sort
computes the same unique result; we use insertion sort). -/
def sortGroups (m : GroupInfoMap) (gs : List RecGroupId) : List RecGroupId :=
  gs.insertionSort (fun a b => infoLt (infoOf m b) (infoOf m a) = false)

/-- Pointwise update of one group's info. -/
def updateInfo (m : GroupInfoMap) (g : RecGroupId) (f : GroupInfo → GroupInfo) :
    GroupInfoMap :=
  m.map (fun q => if q.1 = g then (q.1, f q.2) else q)

/-- One referenced heap type of the isorecursive predecessor collection:
skip basic children and the type's own group, record any other group. -/
def isoPredStep (env : TypeEnv) (g : RecGroupId) (ps : List RecGroupId)
    (child : HeapType) : List RecGroupId :=
  if env.isBasic child then ps
  else if env.groupOf child ≠ g then insertQueue ps (env.groupOf child)
  else ps

/-- The per-type predecessor collection switch: under isorecursive typing
every referenced non-basic heap type of another group contributes its
group; under nominal typing only the supertype's group does; reaching this
switch under equirecursive typing is `WASM_UNREACHABLE` (modelled as
`none`, the fatal abort). -/
def addPreds (env : TypeEnv) (system : TypeSystem) (t : HeapType)
    (g : RecGroupId) (ps : List RecGroupId) : Option (List RecGroupId) :=
  match system with
  | .Isorecursive => some ((env.refd t).foldl (isoPredStep env g) ps)
  | .Nominal =>
    some
      (match env.superOf t with
       | some s => insertQueue ps (env.groupOf s)
       | Option.none => ps)
  | .Equirecursive => Option.none

/-- The `groupInfos.insert({group, {groupInfos.size()}})` step: create the
info of a first-seen group with the next insertion index. -/
def groupInsert (m : GroupInfoMap) (g : RecGroupId) : GroupInfoMap :=
  if (m.lookup g).isSome then m
  else m ++ [(g, ⟨m.length, ⟨0, 1⟩, [], []⟩)]

/-- One iteration of the group-info loop for a counted entry: create the
info of a first-seen group with the next index, accumulate the use count,
and collect predecessor groups. -/
def buildGroupInfosStep (env : TypeEnv) (system : TypeSystem)
    (m : GroupInfoMap) (p : HeapType × Nat) : Option GroupInfoMap :=
  let g := env.groupOf p.1
  let m1 := updateInfo (groupInsert m g) g
    (fun i => { i with useCount := i.useCount.addNat p.2 })
  match addPreds env system p.1 g (infoOf m1 g).preds with
  | some ps => some (updateInfo m1 g (fun i => { i with preds := ps }))
  | Option.none => Option.none

/-- Building the `GroupInfoMap`: iterate the counted types in insertion
order. -/
def buildGroupInfos (env : TypeEnv) (system : TypeSystem) (counts : Counts) :
    Option GroupInfoMap :=
  counts.foldlM (buildGroupInfosStep env system) []

/-- The average fix-up: divide each group's use count by its size, skipped
for the nominal system whose groups are singletons. -/
def fixAverages (env : TypeEnv) (system : TypeSystem) (m : GroupInfoMap) :
    GroupInfoMap :=
  if system = .Nominal then m
  else m.map (fun q =>
    (q.1, { q.2 with useCount := q.2.useCount.divNat (env.groupMembers q.1).length }))

/-- Sorting each group's predecessor list (and clearing the raw set). -/
def sortPreds (m : GroupInfoMap) : GroupInfoMap :=
  m.map (fun q =>
    (q.1, { q.2 with sortedPreds := sortGroups m q.2.preds, preds := [] }))

/-- Modelled from the spec: the generic topological sort utility
(`support/topological_sort.h`, not part of the sources) visits pushed items
most-recently-pushed first (the high-priority-first policy) and, before
yielding an item, pushes its predecessors ahead of it whenever they have
not yet been visited.  Pushing an ascending-sorted list onto the stack
therefore visits it in descending order, which the `reverse` below makes
explicit.  A cycle among predecessors (impossible for a partially ordered
input) and fuel exhaustion are modelled as `none`. -/
def topoVisit (predsOf : RecGroupId → List RecGroupId) :
    Nat → RecGroupId → List RecGroupId → List RecGroupId →
    Option (List RecGroupId)
  | 0, _, _, _ => Option.none
  | fuel + 1, g, gray, out =>
    if g ∈ out then some out
    else if g ∈ gray then Option.none
    else
      match (predsOf g).foldlM
        (fun o p => topoVisit predsOf fuel p (g :: gray) o) out with
      | some o => some (o ++ [g])
      | Option.none => Option.none

/-- Modelled from the spec: run the topological visit over the seed items
in visitation priority order, accumulating the emitted order. -/
def topoSort (predsOf : RecGroupId → List RecGroupId) (fuel : Nat)
    (seeds : List RecGroupId) : Option (List RecGroupId) :=
  seeds.foldlM (fun o s => topoVisit predsOf fuel s [] o) []

/-- The predecessor lists handed to the topological sort, in visitation
priority order (see `topoVisit` on the reversal). -/
def predsOfMap (m : GroupInfoMap) : RecGroupId → List RecGroupId :=
  fun g => (infoOf m g).sortedPreds.reverse

/-- The output `IndexedHeapTypes`: the ordered type sequence and the index
map filled in by `setIndices`. -/
structure IndexedHeapTypes where
  types : List HeapType
  indices : List (HeapType × Nat)
deriving DecidableEq

/-- One write `indices[k] = v` of the `std::unordered_map` (overwrite or
append). -/
def assocSet (m : List (HeapType × Nat)) (k : HeapType) (v : Nat) :
    List (HeapType × Nat) :=
  if (m.lookup k).isSome then
    m.map (fun p => if p.1 = k then (p.1, v) else p)
  else m ++ [(k, v)]

/-- `setIndices`: `indices[types[i]] = i` for `i = 0 .. size-1`. -/
def setIndices (types : List HeapType) : List (HeapType × Nat) :=
  types.enum.foldl (fun m p => assocSet m p.2 p.1) []

/-- `getOptimizedIndexedHeapTypes`: saturate the counts, then either
stable-sort by descending frequency (equirecursive) or topologically sort
the recursion groups (isorecursive and nominal) and flatten their members
in inherent order. -/
def getOptimizedIndexedHeapTypes (env : TypeEnv) (system : TypeSystem)
    (m : Module) : Option IndexedHeapTypes :=
  match getHeapTypeCounts env m with
  | Option.none => Option.none
  | some counts =>
    match system with
    | .Equirecursive =>
      let sorted := counts.insertionSort (fun a b => b.2 ≤ a.2)
      let types := sorted.map (fun p => p.1)
      some ⟨types, setIndices types⟩
    | _ =>
      match buildGroupInfos env system counts with
      | Option.none => Option.none
      | some infos0 =>
        let infos := sortPreds (fixAverages env system infos0)
        let seeds := (sortGroups infos (infos.map (fun q => q.1))).reverse
        match topoSort (predsOfMap infos) (infos.length + 1) seeds with
        | Option.none => Option.none
        | some order =>
          let types := order.flatMap env.groupMembers
          some ⟨types, setIndices types⟩

/-- The use count of a heap type in a frequency map (0 when absent). -/
def countOf (c : Counts) (t : HeapType) : Nat := (c.lookup t).getD 0

/-- A small concrete arena shared by the concrete instantiations: four
standalone non-basic types 0..3, each its own singleton recursion group,
with 0 having supertype 1. -/
def envA : TypeEnv where
  isBasic := fun _ => false
  children := fun _ => []
  refd := fun _ => []
  superOf := fun t => if t = 0 then some 1 else Option.none
  groupOf := fun t => t
  groupMembers := fun g => [g]
  tupleSig := fun _ => 0
  numTypes := 4

/-- The concrete module of the frequency-ordering scenario: X = 1 noted 3
times and discovered first, then Y = 2 noted 5 times, then Z = 3 noted 5
times. -/
def modC5 : Module where
  moduleCode :=
    List.replicate 3 (Expr.callIndirect 1) ++ List.replicate 5 (Expr.callIndirect 2)
      ++ List.replicate 5 (Expr.callIndirect 3)
  tags := []
  tables := []
  elementSegments := []
  functions := []

/-- Correctness of an emission order with respect to predecessor lists:
every emitted group appears after all of its predecessors. -/
def TopoGood (predsOf : RecGroupId → List RecGroupId)
    (out : List RecGroupId) : Prop :=
  ∀ g ∈ out, ∀ p ∈ predsOf g, ∃ l1 l2, out = l1 ++ g :: l2 ∧ p ∈ l1

/-- The full specification of one topological visit, at a given fuel. -/
def VisitSpec (predsOf : RecGroupId → List RecGroupId)
    (K : List RecGroupId) (fuel : Nat) : Prop :=
  ∀ g gray out out', topoVisit predsOf fuel g gray out = some out' →
    (∃ d, out' = out ++ d ∧ ∀ x ∈ gray, x ∉ d) ∧
    g ∈ out' ∧
    (out.Nodup → out'.Nodup) ∧
    (TopoGood predsOf out → TopoGood predsOf out') ∧
    (g ∈ K → (∀ x ∈ out, x ∈ K) → ∀ x ∈ out', x ∈ K)

/-- Group identifiers present in a group-info map, in insertion order. -/
def gkeys (m : GroupInfoMap) : List RecGroupId := m.map (fun q => q.1)

/-- What it means for one counted type to contribute a predecessor edge
from its group to `p`, per type system. -/
def PredContrib (env : TypeEnv) (system : TypeSystem) (t : HeapType)
    (g p : RecGroupId) : Prop :=
  match system with
  | .Isorecursive =>
    ∃ r ∈ env.refd t, env.isBasic r = false ∧ env.groupOf r = p ∧ p ≠ g
  | .Nominal => ∃ s, env.superOf t = some s ∧ env.groupOf s = p
  | .Equirecursive => False

/-- Visitation priority of group `a` over group `b` in a group-info map:
either `a` has a strictly larger (average) use count by value, or the
counts tie in value and `a` was inserted no later.  Lists emitted in this
order are descending by use count, ties broken by ascending insertion
index. -/
def PriorityGE (m : GroupInfoMap) (a b : RecGroupId) : Prop :=
  Frac.vlt (infoOf m b).useCount (infoOf m a).useCount = true ∨
  (Frac.veq (infoOf m a).useCount (infoOf m b).useCount = true ∧
    (infoOf m a).index ≤ (infoOf m b).index)

/-- A small grouped arena for concrete runs: recursion group 10 holds the
mutually recursive types 0 and 1, group 11 holds type 2, and type 0
references type 2 structurally. -/
def envB : TypeEnv where
  isBasic := fun _ => false
  children := fun t => if t = 0 then [2] else []
  refd := fun t => if t = 0 then [2] else []
  superOf := fun _ => Option.none
  groupOf := fun t => if t ≤ 1 then 10 else 11
  groupMembers := fun g => if g = 10 then [0, 1] else if g = 11 then [2] else []
  tupleSig := fun _ => 0
  numTypes := 3

/-- A module over `envB`: five uses of type 0 and one use of type 2. -/
def modB : Module where
  moduleCode :=
    List.replicate 5 (Expr.callIndirect 0) ++ [Expr.callIndirect 2]
  tags := []
  tables := []
  elementSegments := []
  functions := []

/-- Keys never disappear and only grow at the back: the generic growth
shape shared by all mutators. -/
def GrowsFrom (old new : List HeapType) : Prop := ∃ l, new = old ++ l

/-- The invariant of every frequency map the pass builds: unique keys,
none of them basic. -/
def GoodCounts (env : TypeEnv) (c : Counts) : Prop :=
  (keysOf c).Nodup ∧ ∀ t ∈ keysOf c, env.isBasic t = false

/-- A popped type has been fully processed by the saturation loop: its
non-basic structural children are present, its supertype is present, and
its recursion group has been marked processed. -/
def ProcessedT (env : TypeEnv) (counts : Counts) (groups : List RecGroupId)
    (t : HeapType) : Prop :=
  (∀ ch ∈ env.children t, env.isBasic ch = false → ch ∈ keysOf counts) ∧
  (∀ s, env.superOf t = some s → s ∈ keysOf counts) ∧
  env.groupOf t ∈ groups

/-- Invariant of the work-list/map pair inside one saturation step, with
`P` the static property already established for keys that are no longer
queued. -/
def PairInv (env : TypeEnv) (P : HeapType → Prop)
    (s : List HeapType × Counts) : Prop :=
  GoodCounts env s.2 ∧
  (∀ x ∈ keysOf s.2, x < env.numTypes) ∧
  (∀ x ∈ s.1, x ∈ keysOf s.2) ∧
  (∀ x ∈ keysOf s.2, x ∈ s.1 ∨ P x)

/-- The saturation-loop invariant: good bounded map, queued types are all
present, every present type is queued or fully processed, and every
processed group has all members present. -/
def CInv (env : TypeEnv) (st : ClosureState) : Prop :=
  GoodCounts env st.counts ∧
  (∀ x ∈ keysOf st.counts, x < env.numTypes) ∧
  (∀ x ∈ st.queue, x ∈ keysOf st.counts) ∧
  (∀ x ∈ keysOf st.counts,
    x ∈ st.queue ∨ ProcessedT env st.counts st.includedGroups x) ∧
  (∀ g ∈ st.includedGroups, ∀ mm ∈ env.groupMembers g, mm ∈ keysOf st.counts)

/-! Basic lemmas about the ordered frequency map. -/

theorem mem_keysOf {c : Counts} {p : HeapType × Nat} (hp : p ∈ c) :
    p.1 ∈ keysOf c :=
  List.mem_map_of_mem _ hp

theorem containsKey_iff {c : Counts} {t : HeapType} :
    containsKey c t = true ↔ t ∈ keysOf c := by
  induction c with
  | nil => simp [containsKey, keysOf]
  | cons p c ih =>
    by_cases h : t = p.1
    · subst h
      simp [containsKey, List.lookup, keysOf]
    · have hbeq : (t == p.1) = false := by simpa using h
      simp only [containsKey, List.lookup, hbeq, keysOf, List.map_cons,
        List.mem_cons] at ih ⊢
      rw [ih]
      constructor
      · exact fun hm => Or.inr hm
      · rintro (hm | hm)
        · exact absurd hm h
        · exact hm

theorem containsKey_eq_false_iff {c : Counts} {t : HeapType} :
    containsKey c t = false ↔ t ∉ keysOf c := by
  rw [← Bool.not_eq_true, not_iff_not]
  exact containsKey_iff

/-- Keys after an entry update that keeps first components. -/
theorem keysOf_mapUpdate (c : Counts) (t : HeapType) (f : Nat → Nat) :
    keysOf (c.map (fun p => if p.1 = t then (p.1, f p.2) else p)) = keysOf c := by
  simp only [keysOf, List.map_map]
  congr 1
  funext p
  by_cases h : p.1 = t <;> simp [h]

theorem keysOf_append (c : Counts) (l : Counts) :
    keysOf (c ++ l) = keysOf c ++ keysOf l := by
  simp [keysOf]

/-- `bump` either preserves the keys or appends the new one. -/
theorem keysOf_bump (c : Counts) (t : HeapType) :
    keysOf (bump c t) = if t ∈ keysOf c then keysOf c else keysOf c ++ [t] := by
  unfold bump
  by_cases h : containsKey c t = true
  · rw [if_pos h, if_pos (containsKey_iff.mp h)]
    exact keysOf_mapUpdate c t (fun n => n + 1)
  · have h' := containsKey_eq_false_iff.mp (Bool.not_eq_true _ ▸ h)
    rw [if_neg h, if_neg h', keysOf_append]
    rfl

theorem keysOf_note (env : TypeEnv) (c : Counts) (t : HeapType) :
    keysOf (note env c t) =
      if env.isBasic t = true ∨ t ∈ keysOf c then keysOf c
      else keysOf c ++ [t] := by
  unfold note
  by_cases hb : env.isBasic t = true
  · simp [hb]
  · rw [if_neg hb, keysOf_bump]
    by_cases hm : t ∈ keysOf c
    · rw [if_pos hm, if_pos (Or.inr hm)]
    · rw [if_neg hm, if_neg (by push_neg; exact ⟨hb, hm⟩)]

theorem keysOf_incl (env : TypeEnv) (c : Counts) (t : HeapType) :
    keysOf (incl env c t) =
      if env.isBasic t = true ∨ t ∈ keysOf c then keysOf c
      else keysOf c ++ [t] := by
  unfold incl
  by_cases hb : env.isBasic t = true
  · simp [hb]
  · by_cases h : containsKey c t = true
    · rw [if_neg hb, if_pos h, if_pos (Or.inr (containsKey_iff.mp h))]
    · have h' := containsKey_eq_false_iff.mp (Bool.not_eq_true _ ▸ h)
      rw [if_neg hb, if_neg h, keysOf_append,
        if_neg (by push_neg; exact ⟨hb, h'⟩)]
      rfl

theorem keysOf_addCount (c : Counts) (t : HeapType) (k : Nat) :
    keysOf (addCount c t k) =
      if t ∈ keysOf c then keysOf c else keysOf c ++ [t] := by
  unfold addCount
  by_cases h : containsKey c t = true
  · rw [if_pos h, if_pos (containsKey_iff.mp h)]
    exact keysOf_mapUpdate c t (fun n => n + k)
  · have h' := containsKey_eq_false_iff.mp (Bool.not_eq_true _ ▸ h)
    rw [if_neg h, if_neg h', keysOf_append]
    rfl

theorem growsFrom_refl (l : List HeapType) : GrowsFrom l l := ⟨[], by simp⟩

theorem growsFrom_trans {a b c : List HeapType}
    (h1 : GrowsFrom a b) (h2 : GrowsFrom b c) : GrowsFrom a c := by
  obtain ⟨l1, rfl⟩ := h1
  obtain ⟨l2, rfl⟩ := h2
  exact ⟨l1 ++ l2, by simp⟩

theorem growsFrom_note (env : TypeEnv) (c : Counts) (t : HeapType) :
    GrowsFrom (keysOf c) (keysOf (note env c t)) := by
  rw [keysOf_note]
  by_cases h : env.isBasic t = true ∨ t ∈ keysOf c
  · exact if_pos h ▸ growsFrom_refl _
  · exact if_neg h ▸ ⟨[t], rfl⟩

theorem growsFrom_incl (env : TypeEnv) (c : Counts) (t : HeapType) :
    GrowsFrom (keysOf c) (keysOf (incl env c t)) := by
  rw [keysOf_incl]
  by_cases h : env.isBasic t = true ∨ t ∈ keysOf c
  · exact if_pos h ▸ growsFrom_refl _
  · exact if_neg h ▸ ⟨[t], rfl⟩

theorem growsFrom_addCount (c : Counts) (t : HeapType) (k : Nat) :
    GrowsFrom (keysOf c) (keysOf (addCount c t k)) := by
  rw [keysOf_addCount]
  by_cases h : t ∈ keysOf c
  · exact if_pos h ▸ growsFrom_refl _
  · exact if_neg h ▸ ⟨[t], rfl⟩

theorem growsFrom_noteV (env : TypeEnv) (c : Counts) (v : ValType) :
    GrowsFrom (keysOf c) (keysOf (noteV env c v)) := by
  unfold noteV
  induction v.heapTypeChildren generalizing c with
  | nil => exact growsFrom_refl _
  | cons h l ih =>
    exact growsFrom_trans (growsFrom_note env c h) (ih (note env c h))

theorem goodCounts_nil (env : TypeEnv) : GoodCounts env [] := by
  constructor <;> simp [keysOf]

theorem goodCounts_note (env : TypeEnv) {c : Counts} (h : GoodCounts env c)
    (t : HeapType) : GoodCounts env (note env c t) := by
  rw [GoodCounts, keysOf_note]
  by_cases hc : env.isBasic t = true ∨ t ∈ keysOf c
  · exact if_pos hc ▸ h
  · push_neg at hc
    rw [if_neg (by push_neg; exact hc)]
    refine ⟨List.Nodup.append h.1 (by simp) ?_, ?_⟩
    · simp only [List.disjoint_singleton]
      exact hc.2
    · intro u hu
      rcases List.mem_append.mp hu with hu | hu
      · exact h.2 u hu
      · simp only [List.mem_singleton] at hu
        subst hu
        exact Bool.not_eq_true _ ▸ hc.1

theorem goodCounts_incl (env : TypeEnv) {c : Counts} (h : GoodCounts env c)
    (t : HeapType) : GoodCounts env (incl env c t) := by
  rw [GoodCounts, keysOf_incl]
  by_cases hc : env.isBasic t = true ∨ t ∈ keysOf c
  · exact if_pos hc ▸ h
  · push_neg at hc
    rw [if_neg (by push_neg; exact hc)]
    refine ⟨List.Nodup.append h.1 (by simp) ?_, ?_⟩
    · simp only [List.disjoint_singleton]
      exact hc.2
    · intro u hu
      rcases List.mem_append.mp hu with hu | hu
      · exact h.2 u hu
      · simp only [List.mem_singleton] at hu
        subst hu
        exact Bool.not_eq_true _ ▸ hc.1

theorem goodCounts_addCount (env : TypeEnv) {c : Counts} (h : GoodCounts env c)
    {t : HeapType} (ht : env.isBasic t = false) (k : Nat) :
    GoodCounts env (addCount c t k) := by
  rw [GoodCounts, keysOf_addCount]
  by_cases hc : t ∈ keysOf c
  · exact if_pos hc ▸ h
  · rw [if_neg hc]
    refine ⟨List.Nodup.append h.1 (by simp) (by simpa using hc), ?_⟩
    intro u hu
    rcases List.mem_append.mp hu with hu | hu
    · exact h.2 u hu
    · simp only [List.mem_singleton] at hu
      subst hu
      exact ht

theorem goodCounts_noteV (env : TypeEnv) {c : Counts} (h : GoodCounts env c)
    (v : ValType) : GoodCounts env (noteV env c v) := by
  unfold noteV
  induction v.heapTypeChildren generalizing c with
  | nil => exact h
  | cons x l ih => exact ih (goodCounts_note env h x)

/-! Scanner invariants: every map the scanner builds has unique, non-basic
keys, and keys only grow at the back. -/

theorem goodCounts_visitExpression (env : TypeEnv) {c : Counts}
    (h : GoodCounts env c) (e : Expr) :
    GoodCounts env (visitExpression env c e) := by
  cases e with
  | callIndirect ht => exact goodCounts_note env h ht
  | refNull t => exact goodCounts_noteV env h t
  | rttCanon ht => exact goodCounts_note env h ht
  | rttSub ht => exact goodCounts_note env h ht
  | structNew hasRtt t | arrayNew hasRtt t | arrayInit hasRtt t =>
    unfold visitExpression handleMake
    cases hasRtt
    · cases t with
      | unreachable => exact h
      | ref ht => exact goodCounts_note env h ht
      | none => exact h
      | nonRef => exact h
      | tuple ts => exact h
    · exact h
  | refCast hasRtt it | refTest hasRtt it =>
    unfold visitExpression handleCast
    cases hasRtt
    · exact goodCounts_note env h it
    · exact h
  | brOn op hasRtt it =>
    show GoodCounts env
      (if op = BrOnOp.brOnCast ∨ op = BrOnOp.brOnCastFail then
        handleCast env c hasRtt it else c)
    by_cases hop : op = BrOnOp.brOnCast ∨ op = BrOnOp.brOnCastFail
    · rw [if_pos hop]
      unfold handleCast
      by_cases hr : hasRtt = true
      · rw [if_pos hr]
        exact h
      · rw [if_neg hr]
        exact goodCounts_note env h it
    · rw [if_neg hop]
      exact h
  | structGet rt | structSet rt => exact goodCounts_noteV env h rt
  | localGet t | localSet t =>
    unfold visitExpression
    cases t with
    | ref ht => exact goodCounts_incl env h ht
    | none => exact h
    | unreachable => exact h
    | nonRef => exact h
    | tuple ts => exact h
  | controlFlow t =>
    unfold visitExpression
    cases t with
    | tuple ts => exact goodCounts_note env h (env.tupleSig ts)
    | none => exact goodCounts_noteV env h _
    | unreachable => exact goodCounts_noteV env h _
    | nonRef => exact goodCounts_noteV env h _
    | ref ht => exact goodCounts_noteV env h _
  | otherExpr => exact h

theorem goodCounts_foldVisit (env : TypeEnv) {c : Counts}
    (h : GoodCounts env c) (es : List Expr) :
    GoodCounts env (es.foldl (visitExpression env) c) := by
  induction es generalizing c with
  | nil => exact h
  | cons e es ih => exact ih (goodCounts_visitExpression env h e)

theorem goodCounts_foldNote (env : TypeEnv) {c : Counts}
    (h : GoodCounts env c) (ts : List HeapType) :
    GoodCounts env (ts.foldl (note env) c) := by
  induction ts generalizing c with
  | nil => exact h
  | cons t ts ih => exact ih (goodCounts_note env h t)

theorem goodCounts_foldNoteV (env : TypeEnv) {c : Counts}
    (h : GoodCounts env c) (vs : List ValType) :
    GoodCounts env (vs.foldl (noteV env) c) := by
  induction vs generalizing c with
  | nil => exact h
  | cons v vs ih => exact ih (goodCounts_noteV env h v)

theorem goodCounts_scanFunction (env : TypeEnv) (f : Func) :
    GoodCounts env (scanFunction env f) := by
  unfold scanFunction
  have h1 := goodCounts_note env (goodCounts_nil env) f.type
  have h2 := goodCounts_foldNoteV env h1 f.vars
  cases hi : f.imported
  · simpa [hi] using goodCounts_foldVisit env h2 f.body
  · simpa [hi] using h2

theorem goodCounts_merge (env : TypeEnv) {c : Counts} (h : GoodCounts env c)
    {c2 : Counts} (h2 : ∀ p ∈ c2, env.isBasic p.1 = false) :
    GoodCounts env (c2.foldl (fun c p => addCount c p.1 p.2) c) := by
  induction c2 generalizing c with
  | nil => exact h
  | cons p ps ih =>
    exact ih (goodCounts_addCount env h (h2 p (by simp)) p.2)
      (fun q hq => h2 q (by simp [hq]))

theorem goodCounts_mergeAll (env : TypeEnv) {c : Counts}
    (h : GoodCounts env c) (fs : List Func) :
    GoodCounts env
      (fs.foldl
        (fun c f => (scanFunction env f).foldl (fun c p => addCount c p.1 p.2) c)
        c) := by
  induction fs generalizing c with
  | nil => exact h
  | cons f fs ih =>
    refine ih (goodCounts_merge env h ?_)
    intro p hp
    exact (goodCounts_scanFunction env f).2 p.1 (mem_keysOf hp)

theorem goodCounts_scanModule (env : TypeEnv) (m : Module) :
    GoodCounts env (scanModule env m) := by
  unfold scanModule
  have h1 := goodCounts_foldVisit env (goodCounts_nil env) m.moduleCode
  have h2 := goodCounts_foldNote env h1 m.tags
  have h3 := goodCounts_foldNoteV env h2 m.tables
  have h4 := goodCounts_foldNoteV env h3 m.elementSegments
  exact goodCounts_mergeAll env h4 m.functions

/-! Closure-loop invariants that need no arena well-formedness: the map
keeps unique, non-basic keys and only ever grows at the back. -/

theorem goodCounts_childStep (env : TypeEnv) {s : List HeapType × Counts}
    (h : GoodCounts env s.2) (child : HeapType) :
    GoodCounts env (childStep env s child).2 := by
  unfold childStep
  by_cases hb : env.isBasic child = true
  · rw [if_pos hb]
    exact h
  · rw [if_neg hb]
    exact goodCounts_note env h child

theorem goodCounts_childPhase (env : TypeEnv) (t : HeapType)
    {s : List HeapType × Counts} (h : GoodCounts env s.2) :
    GoodCounts env (childPhase env t s).2 := by
  unfold childPhase
  induction env.children t generalizing s with
  | nil => exact h
  | cons ch l ih => exact ih (goodCounts_childStep env h ch)

theorem goodCounts_superPhase (env : TypeEnv) (t : HeapType)
    {s : List HeapType × Counts} (h : GoodCounts env s.2) :
    GoodCounts env (superPhase env t s).2 := by
  unfold superPhase
  cases env.superOf t with
  | none => exact h
  | some sup =>
    show GoodCounts env
      (if containsKey s.2 sup = true then s
       else (insertQueue s.1 sup, incl env s.2 sup)).2
    by_cases hc : containsKey s.2 sup = true
    · rw [if_pos hc]
      exact h
    · rw [if_neg hc]
      exact goodCounts_incl env h sup

theorem goodCounts_groupStep (env : TypeEnv) {s : List HeapType × Counts}
    (h : GoodCounts env s.2) (ty : HeapType) :
    GoodCounts env (groupStep env s ty).2 := by
  unfold groupStep
  by_cases hc : containsKey s.2 ty = true
  · rw [if_pos hc]
    exact h
  · rw [if_neg hc]
    exact goodCounts_incl env h ty

theorem goodCounts_groupPhase (env : TypeEnv) (t : HeapType)
    {s : List HeapType × Counts} (h : GoodCounts env s.2)
    (groups : List RecGroupId) :
    GoodCounts env (groupPhase env t s groups).counts := by
  unfold groupPhase
  by_cases hg : env.groupOf t ∈ groups
  · rw [if_pos hg]
    exact h
  · rw [if_neg hg]
    show GoodCounts env ((env.groupMembers (env.groupOf t)).foldl (groupStep env) s).2
    induction env.groupMembers (env.groupOf t) generalizing s with
    | nil => exact h
    | cons m l ih => exact ih (goodCounts_groupStep env h m)

theorem goodCounts_closureStep (env : TypeEnv) (t : HeapType)
    (rest : List HeapType) {counts : Counts} (h : GoodCounts env counts)
    (groups : List RecGroupId) :
    GoodCounts env (closureStep env t rest counts groups).counts :=
  goodCounts_groupPhase env t
    (goodCounts_superPhase env t (goodCounts_childPhase env t h)) groups

theorem growsFrom_childStep (env : TypeEnv) (s : List HeapType × Counts)
    (child : HeapType) :
    GrowsFrom (keysOf s.2) (keysOf (childStep env s child).2) := by
  unfold childStep
  by_cases hb : env.isBasic child = true
  · rw [if_pos hb]
    exact growsFrom_refl _
  · rw [if_neg hb]
    exact growsFrom_note env s.2 child

theorem growsFrom_childPhase (env : TypeEnv) (t : HeapType)
    (s : List HeapType × Counts) :
    GrowsFrom (keysOf s.2) (keysOf (childPhase env t s).2) := by
  unfold childPhase
  induction env.children t generalizing s with
  | nil => exact growsFrom_refl _
  | cons ch l ih =>
    exact growsFrom_trans (growsFrom_childStep env s ch) (ih _)

theorem growsFrom_superPhase (env : TypeEnv) (t : HeapType)
    (s : List HeapType × Counts) :
    GrowsFrom (keysOf s.2) (keysOf (superPhase env t s).2) := by
  unfold superPhase
  cases env.superOf t with
  | none => exact growsFrom_refl _
  | some sup =>
    show GrowsFrom (keysOf s.2)
      (keysOf
        (if containsKey s.2 sup = true then s
         else (insertQueue s.1 sup, incl env s.2 sup)).2)
    by_cases hc : containsKey s.2 sup = true
    · rw [if_pos hc]
      exact growsFrom_refl _
    · rw [if_neg hc]
      exact growsFrom_incl env s.2 sup

theorem growsFrom_groupStep (env : TypeEnv) (s : List HeapType × Counts)
    (ty : HeapType) :
    GrowsFrom (keysOf s.2) (keysOf (groupStep env s ty).2) := by
  unfold groupStep
  by_cases hc : containsKey s.2 ty = true
  · rw [if_pos hc]
    exact growsFrom_refl _
  · rw [if_neg hc]
    exact growsFrom_incl env s.2 ty

theorem growsFrom_groupPhase (env : TypeEnv) (t : HeapType)
    (s : List HeapType × Counts) (groups : List RecGroupId) :
    GrowsFrom (keysOf s.2) (keysOf (groupPhase env t s groups).counts) := by
  unfold groupPhase
  by_cases hg : env.groupOf t ∈ groups
  · rw [if_pos hg]
    exact growsFrom_refl _
  · rw [if_neg hg]
    show GrowsFrom (keysOf s.2)
      (keysOf ((env.groupMembers (env.groupOf t)).foldl (groupStep env) s).2)
    induction env.groupMembers (env.groupOf t) generalizing s with
    | nil => exact growsFrom_refl _
    | cons m l ih =>
      exact growsFrom_trans (growsFrom_groupStep env s m) (ih _)

theorem growsFrom_closureStep (env : TypeEnv) (t : HeapType)
    (rest : List HeapType) (counts : Counts) (groups : List RecGroupId) :
    GrowsFrom (keysOf counts) (keysOf (closureStep env t rest counts groups).counts) :=
  growsFrom_trans (growsFrom_childPhase env t (rest, counts))
    (growsFrom_trans (growsFrom_superPhase env t _)
      (growsFrom_groupPhase env t _ groups))

/-- Generic preservation through the saturation loop. -/
theorem closureLoop_inv (env : TypeEnv) (P : Counts → Prop)
    (hstep : ∀ t rest counts groups, P counts →
      P (closureStep env t rest counts groups).counts) :
    ∀ fuel st c', P st.counts → closureLoop env fuel st = some c' → P c' := by
  intro fuel
  induction fuel with
  | zero =>
    intro st c' hP hrun
    obtain ⟨q, c, g⟩ := st
    cases q with
    | nil =>
      simp only [closureLoop] at hrun
      cases hrun
      exact hP
    | cons t rest => exact absurd hrun (by simp [closureLoop])
  | succ fuel ih =>
    intro st c' hP hrun
    obtain ⟨q, c, g⟩ := st
    cases q with
    | nil =>
      simp only [closureLoop] at hrun
      cases hrun
      exact hP
    | cons t rest =>
      simp only [closureLoop] at hrun
      exact ih _ _ (hstep t rest c g hP) hrun

theorem getHeapTypeCounts_goodCounts (env : TypeEnv) (m : Module)
    {c' : Counts} (h : getHeapTypeCounts env m = some c') :
    GoodCounts env c' := by
  unfold getHeapTypeCounts at h
  exact closureLoop_inv env (GoodCounts env)
    (fun t rest counts groups hP => goodCounts_closureStep env t rest hP groups)
    _ _ _ (goodCounts_scanModule env m) h

theorem getHeapTypeCounts_grows (env : TypeEnv) (m : Module)
    {c' : Counts} (h : getHeapTypeCounts env m = some c') :
    GrowsFrom (keysOf (scanModule env m)) (keysOf c') := by
  unfold getHeapTypeCounts at h
  exact closureLoop_inv env
    (fun c => GrowsFrom (keysOf (scanModule env m)) (keysOf c))
    (fun t rest counts groups hP =>
      growsFrom_trans hP (growsFrom_closureStep env t rest counts groups))
    _ _ _ (growsFrom_refl _) h

/-! Value-level lemmas about lookup, include, and the scanner frame
conditions. -/

theorem lookup_append (c d : Counts) (u : HeapType) :
    (c ++ d).lookup u =
      match c.lookup u with
      | some v => some v
      | Option.none => d.lookup u := by
  induction c with
  | nil => simp
  | cons p c ih =>
    cases hbeq : (u == p.1)
    · simp only [List.cons_append, List.lookup, hbeq]
      exact ih
    · simp only [List.cons_append, List.lookup, hbeq]

theorem lookup_eq_none_of_not_contains {c : Counts} {t : HeapType}
    (h : containsKey c t = false) : c.lookup t = Option.none := by
  unfold containsKey at h
  cases hl : c.lookup t
  · rfl
  · rw [hl] at h
    simp at h

/-- `include` on an absent non-basic type appends a zero entry. -/
theorem incl_absent (env : TypeEnv) {c : Counts} {t : HeapType}
    (hb : env.isBasic t = false) (hc : containsKey c t = false) :
    incl env c t = c ++ [(t, 0)] := by
  unfold incl
  rw [if_neg (by simp [hb]), if_neg (by simp [hc])]

/-- After including an absent type, its stored count is zero. -/
theorem lookup_incl_self (env : TypeEnv) {c : Counts} {t : HeapType}
    (hb : env.isBasic t = false) (hc : containsKey c t = false) :
    (incl env c t).lookup t = some 0 := by
  rw [incl_absent env hb hc, lookup_append, lookup_eq_none_of_not_contains hc]
  simp [List.lookup]

/-- Including a type never touches any other entry. -/
theorem lookup_incl_other (env : TypeEnv) (c : Counts) (t : HeapType)
    {u : HeapType} (hu : u ≠ t) :
    (incl env c t).lookup u = c.lookup u := by
  unfold incl
  by_cases hb : env.isBasic t = true
  · rw [if_pos hb]
  · rw [if_neg hb]
    by_cases hc : containsKey c t = true
    · rw [if_pos hc]
    · rw [if_neg hc, lookup_append]
      cases hl : c.lookup u
      · have hbeq : (u == t) = false := by simpa using hu
        simp [List.lookup, hbeq]
      · rfl

/-- Including a type never changes any use count. -/
theorem countOf_incl (env : TypeEnv) (c : Counts) (t u : HeapType) :
    countOf (incl env c t) u = countOf c u := by
  by_cases hu : u = t
  · subst hu
    unfold incl
    by_cases hb : env.isBasic u = true
    · rw [if_pos hb]
    · rw [if_neg hb]
      by_cases hc : containsKey c u = true
      · rw [if_pos hc]
      · rw [if_neg hc]
        unfold countOf
        rw [lookup_append, lookup_eq_none_of_not_contains (by simpa using hc)]
        simp [List.lookup]
  · unfold countOf
    rw [lookup_incl_other env c t hu]

/-- Membership after include. -/
theorem mem_keysOf_incl (env : TypeEnv) (c : Counts) {t : HeapType}
    (hb : env.isBasic t = false) : t ∈ keysOf (incl env c t) := by
  rw [keysOf_incl]
  by_cases hm : t ∈ keysOf c
  · rw [if_pos (Or.inr hm)]
    exact hm
  · rw [if_neg (by simp [hb, hm])]
    simp

/-- C6: during closure expansion, a supertype of the processed type that is
not yet present in the frequency map is added via include, not note: after
the step its use count is 0 and the stored count of every other entry is
unchanged. -/
theorem claim_C6 (env : TypeEnv) (t sup : HeapType) (q : List HeapType)
    (counts : Counts) (hs : env.superOf t = some sup)
    (hb : env.isBasic sup = false) (habs : containsKey counts sup = false) :
    (superPhase env t (q, counts)).2.lookup sup = some 0 ∧
    ∀ u, u ≠ sup → (superPhase env t (q, counts)).2.lookup u = counts.lookup u := by
  unfold superPhase
  rw [hs]
  show ((if containsKey counts sup = true then (q, counts)
      else (insertQueue q sup, incl env counts sup)).2.lookup sup = some 0) ∧
    ∀ u, u ≠ sup →
      (if containsKey counts sup = true then (q, counts)
        else (insertQueue q sup, incl env counts sup)).2.lookup u =
        counts.lookup u
  rw [if_neg (by simp [habs])]
  exact ⟨lookup_incl_self env hb habs,
    fun u hu => lookup_incl_other env counts sup hu⟩

theorem claim_C6_witness :
    (superPhase envA 0 ([], [(0, 1)])).2.lookup 1 = some 0 ∧
    ∀ u, u ≠ 1 → (superPhase envA 0 ([], [(0, 1)])).2.lookup u =
      ([(0, 1)] : Counts).lookup u :=
  claim_C6 envA 0 1 [] [(0, 1)] rfl rfl rfl

/-- C8: a local read or local write whose type is a reference records its
heap type through include, not note: the scanner step is exactly include,
the (non-basic) heap type is present afterwards, and no use count changes. -/
theorem claim_C8 (env : TypeEnv) (c : Counts) (ht : HeapType)
    (hb : env.isBasic ht = false) :
    visitExpression env c (.localGet (.ref ht)) = incl env c ht ∧
    visitExpression env c (.localSet (.ref ht)) = incl env c ht ∧
    ht ∈ keysOf (incl env c ht) ∧
    ∀ u, countOf (incl env c ht) u = countOf c u :=
  ⟨rfl, rfl, mem_keysOf_incl env c hb, fun u => countOf_incl env c ht u⟩

theorem claim_C8_witness :
    visitExpression envA [(2, 5)] (.localGet (.ref 3)) = incl envA [(2, 5)] 3 ∧
    visitExpression envA [(2, 5)] (.localSet (.ref 3)) = incl envA [(2, 5)] 3 ∧
    3 ∈ keysOf (incl envA [(2, 5)] 3) ∧
    ∀ u, countOf (incl envA [(2, 5)] 3) u = countOf [(2, 5)] u :=
  claim_C8 envA [(2, 5)] 3 rfl

/-! The fatal equirecursive branch of the group-info switch. -/

theorem addPreds_isSome (env : TypeEnv) {system : TypeSystem}
    (hs : system ≠ TypeSystem.Equirecursive) (t : HeapType) (g : RecGroupId)
    (ps : List RecGroupId) : (addPreds env system t g ps).isSome = true := by
  cases system with
  | Equirecursive => exact absurd rfl hs
  | Isorecursive => rfl
  | Nominal => rfl

theorem buildGroupInfosStep_isSome (env : TypeEnv) {system : TypeSystem}
    (hs : system ≠ TypeSystem.Equirecursive) (m : GroupInfoMap)
    (p : HeapType × Nat) : ∃ m1, buildGroupInfosStep env system m p = some m1 := by
  unfold buildGroupInfosStep
  dsimp only
  obtain ⟨ps, hps⟩ := Option.isSome_iff_exists.mp (addPreds_isSome env hs p.1 _ _)
  rw [hps]
  exact ⟨_, rfl⟩

theorem buildGroupInfos_isSome (env : TypeEnv) {system : TypeSystem}
    (hs : system ≠ TypeSystem.Equirecursive) (counts : Counts) :
    (buildGroupInfos env system counts).isSome = true := by
  unfold buildGroupInfos
  generalize ([] : GroupInfoMap) = m0
  induction counts generalizing m0 with
  | nil => rfl
  | cons p l ih =>
    rw [List.foldlM_cons]
    obtain ⟨m1, hm1⟩ := buildGroupInfosStep_isSome env hs m0 p
    rw [hm1]
    exact ih m1

/-- C9: reaching the recursion-group predecessor switch under the
equirecursive system is the fatal `WASM_UNREACHABLE` branch (modelled as
`none`); under the precondition that the equirecursive early return was
taken (the system is not equirecursive), building the group infos never
hits that branch, for any saturated frequency map. -/
theorem claim_C9 (env : TypeEnv) (system : TypeSystem) (counts : Counts)
    (t : HeapType) (g : RecGroupId) (ps : List RecGroupId) :
    addPreds env TypeSystem.Equirecursive t g ps = Option.none ∧
    (system ≠ TypeSystem.Equirecursive →
      (buildGroupInfos env system counts).isSome = true) :=
  ⟨rfl, fun hs => buildGroupInfos_isSome env hs counts⟩

theorem claim_C9_witness :
    addPreds envA TypeSystem.Equirecursive 0 0 [] = Option.none ∧
    (TypeSystem.Isorecursive ≠ TypeSystem.Equirecursive →
      (buildGroupInfos envA TypeSystem.Isorecursive [(0, 1), (2, 3)]).isSome
        = true) :=
  claim_C9 envA TypeSystem.Isorecursive [(0, 1), (2, 3)] 0 0 []

/-! The equirecursive frequency-ordering strategy. -/

theorem lookup_of_mem_nodup {c : Counts} (hnd : (keysOf c).Nodup)
    {p : HeapType × Nat} (hp : p ∈ c) : c.lookup p.1 = some p.2 := by
  induction c with
  | nil => cases hp
  | cons q c ih =>
    rcases List.mem_cons.mp hp with rfl | hp
    · simp [List.lookup]
    · have hq : q.1 ≠ p.1 := by
        intro he
        apply (List.nodup_cons.mp hnd).1
        show q.1 ∈ keysOf c
        rw [he]
        exact mem_keysOf hp
      have hbeq : (p.1 == q.1) = false := by
        simpa using fun he => hq he.symm
      simp only [List.lookup, hbeq]
      exact ih (List.nodup_cons.mp hnd).2 hp

/-- C5: under the equirecursive system the output is the stable sort of the
saturated map by descending use count: counts are non-increasing along the
output, any two entries in insertion order whose counts do not increase
keep their relative order (so ties break towards earlier insertion), and on
the concrete scenario X:3 discovered first, then Y:5, then Z:5 (with X, Y,
Z interned as 1, 2, 3) the output sequence is Y, Z, X. -/
theorem claim_C5 (env : TypeEnv) (m : Module) (counts : Counts)
    (idx : IndexedHeapTypes) (hc : getHeapTypeCounts env m = some counts)
    (hopt : getOptimizedIndexedHeapTypes env TypeSystem.Equirecursive m = some idx) :
    idx.types.Pairwise (fun x y => countOf counts y ≤ countOf counts x) ∧
    (∀ a b : HeapType × Nat, List.Sublist [a, b] counts → b.2 ≤ a.2 →
      List.Sublist [a.1, b.1] idx.types) ∧
    (getOptimizedIndexedHeapTypes envA TypeSystem.Equirecursive modC5).map
      (fun i => i.types) = some [2, 3, 1] := by
  unfold getOptimizedIndexedHeapTypes at hopt
  rw [hc] at hopt
  simp only [Option.some.injEq] at hopt
  subst hopt
  have hnd : (keysOf counts).Nodup := (getHeapTypeCounts_goodCounts env m hc).1
  haveI htot : IsTotal (HeapType × Nat) (fun a b => b.2 ≤ a.2) :=
    ⟨fun a b => Nat.le_total b.2 a.2⟩
  haveI htrans : IsTrans (HeapType × Nat) (fun a b => b.2 ≤ a.2) :=
    ⟨fun a b c hab hbc => Nat.le_trans hbc hab⟩
  refine ⟨?_, ?_, rfl⟩
  · have hsorted := List.sorted_insertionSort (fun a b => b.2 ≤ a.2) counts
    have hperm : (counts.insertionSort (fun a b => b.2 ≤ a.2)).Perm counts :=
      List.perm_insertionSort _ _
    rw [List.Sorted] at hsorted
    show (List.map (fun p => p.1) (counts.insertionSort fun a b => b.2 ≤ a.2)).Pairwise _
    rw [List.pairwise_map]
    refine List.Pairwise.imp_of_mem ?_ hsorted
    intro a b ha hb hab
    have ha' : a ∈ counts := hperm.mem_iff.mp ha
    have hb' : b ∈ counts := hperm.mem_iff.mp hb
    unfold countOf
    rw [lookup_of_mem_nodup hnd ha', lookup_of_mem_nodup hnd hb']
    exact hab
  · intro a b hsub hle
    have hpair : [a, b].Sublist (counts.insertionSort (fun a b => b.2 ≤ a.2)) :=
      List.pair_sublist_insertionSort hle hsub
    have hmap := List.Sublist.map (fun p => p.1) hpair
    simpa using hmap

theorem claim_C5_witness :
    (getOptimizedIndexedHeapTypes envA TypeSystem.Equirecursive modC5).map
        (fun i => i.types) = some [2, 3, 1] :=
  (claim_C5 envA modC5 [(1, 3), (2, 5), (3, 5)]
    ⟨[2, 3, 1], [(2, 0), (3, 1), (1, 2)]⟩ (by decide) (by decide)).2.2

/-! Saturation: the invariant carried through the closure loop. -/

theorem mem_of_growsFrom {old new : List HeapType} (h : GrowsFrom old new)
    {x : HeapType} (hx : x ∈ old) : x ∈ new := by
  obtain ⟨l, rfl⟩ := h
  exact List.mem_append_left l hx

theorem insertQueue_extends (q : List HeapType) (t : HeapType) :
    ∃ l, insertQueue q t = q ++ l := by
  unfold insertQueue
  by_cases h : t ∈ q
  · exact ⟨[], by rw [if_pos h, List.append_nil]⟩
  · exact ⟨[t], by rw [if_neg h]⟩

theorem mem_insertQueue_self (q : List HeapType) (t : HeapType) :
    t ∈ insertQueue q t := by
  unfold insertQueue
  by_cases h : t ∈ q
  · rw [if_pos h]
    exact h
  · rw [if_neg h]
    simp

theorem mem_insertQueue_of_mem {q : List HeapType} {x : HeapType}
    (hx : x ∈ q) (t : HeapType) : x ∈ insertQueue q t := by
  obtain ⟨l, hl⟩ := insertQueue_extends q t
  rw [hl]
  exact List.mem_append_left l hx

theorem mem_insertQueue_elim {q : List HeapType} {t x : HeapType}
    (hx : x ∈ insertQueue q t) : x ∈ q ∨ x = t := by
  unfold insertQueue at hx
  by_cases h : t ∈ q
  · rw [if_pos h] at hx
    exact Or.inl hx
  · rw [if_neg h] at hx
    rcases List.mem_append.mp hx with hx | hx
    · exact Or.inl hx
    · simp only [List.mem_singleton] at hx
      exact Or.inr hx

theorem mem_keysOf_note (env : TypeEnv) (c : Counts) {t : HeapType}
    (hb : env.isBasic t = false) : t ∈ keysOf (note env c t) := by
  rw [keysOf_note]
  by_cases hm : t ∈ keysOf c
  · rw [if_pos (Or.inr hm)]
    exact hm
  · rw [if_neg (by simp [hb, hm])]
    simp

theorem childStep_eq_basic (env : TypeEnv) (s : List HeapType × Counts)
    {ch : HeapType} (hb : env.isBasic ch = true) : childStep env s ch = s := by
  simp [childStep, hb]

theorem childStep_eq_present (env : TypeEnv) (s : List HeapType × Counts)
    {ch : HeapType} (hb : env.isBasic ch = false)
    (hc : containsKey s.2 ch = true) :
    childStep env s ch = (s.1, note env s.2 ch) := by
  simp [childStep, hb, hc]

theorem childStep_eq_absent (env : TypeEnv) (s : List HeapType × Counts)
    {ch : HeapType} (hb : env.isBasic ch = false)
    (hc : containsKey s.2 ch = false) :
    childStep env s ch = (insertQueue s.1 ch, note env s.2 ch) := by
  simp [childStep, hb, hc]

theorem superPhase_eq_none (env : TypeEnv) (t : HeapType)
    (s : List HeapType × Counts) (hso : env.superOf t = Option.none) :
    superPhase env t s = s := by
  simp [superPhase, hso]

theorem superPhase_eq_present (env : TypeEnv) (t : HeapType)
    (s : List HeapType × Counts) {sup : HeapType}
    (hso : env.superOf t = some sup) (hc : containsKey s.2 sup = true) :
    superPhase env t s = s := by
  simp [superPhase, hso, hc]

theorem superPhase_eq_absent (env : TypeEnv) (t : HeapType)
    (s : List HeapType × Counts) {sup : HeapType}
    (hso : env.superOf t = some sup) (hc : containsKey s.2 sup = false) :
    superPhase env t s = (insertQueue s.1 sup, incl env s.2 sup) := by
  simp [superPhase, hso, hc]

theorem groupStep_eq_present (env : TypeEnv) (s : List HeapType × Counts)
    {ty : HeapType} (hc : containsKey s.2 ty = true) :
    groupStep env s ty = s := by
  simp [groupStep, hc]

theorem groupStep_eq_absent (env : TypeEnv) (s : List HeapType × Counts)
    {ty : HeapType} (hc : containsKey s.2 ty = false) :
    groupStep env s ty = (insertQueue s.1 ty, incl env s.2 ty) := by
  simp [groupStep, hc]

/-- The common spec of one enqueue-and-insert step on the pair state: the
invariant is preserved, keys and queue grow at the back, and the given type
is present afterwards. -/
theorem pairStep_spec (env : TypeEnv) (P : HeapType → Prop)
    {s : List HeapType × Counts} (h : PairInv env P s) {ty : HeapType}
    (hb : env.isBasic ty = false) (hlt : ty < env.numTypes)
    (hgrow : GoodCounts env s.2 → GoodCounts env ((insertQueue s.1 ty, incl env s.2 ty)).2) :
    PairInv env P (insertQueue s.1 ty, incl env s.2 ty) ∧
    GrowsFrom (keysOf s.2) (keysOf (incl env s.2 ty)) ∧
    ty ∈ keysOf (incl env s.2 ty) := by
  obtain ⟨hgood, hbnd, hqk, hdis⟩ := h
  by_cases hm : ty ∈ keysOf s.2
  · have hkeys : keysOf (incl env s.2 ty) = keysOf s.2 := by
      rw [keysOf_incl, if_pos (Or.inr hm)]
    refine ⟨⟨hgrow hgood, ?_, ?_, ?_⟩, ?_, ?_⟩
    · rw [hkeys]
      exact hbnd
    · intro x hx
      rw [hkeys]
      rcases mem_insertQueue_elim hx with hx | rfl
      · exact hqk x hx
      · exact hm
    · rw [hkeys]
      intro x hx
      rcases hdis x hx with hx | hx
      · exact Or.inl (mem_insertQueue_of_mem hx ty)
      · exact Or.inr hx
    · rw [hkeys]
      exact growsFrom_refl _
    · rw [hkeys]
      exact hm
  · have hkeys : keysOf (incl env s.2 ty) = keysOf s.2 ++ [ty] := by
      rw [keysOf_incl, if_neg (by simp [hb, hm])]
    refine ⟨⟨hgrow hgood, ?_, ?_, ?_⟩, ?_, ?_⟩
    · intro x hx
      rw [hkeys] at hx
      rcases List.mem_append.mp hx with hx | hx
      · exact hbnd x hx
      · simp only [List.mem_singleton] at hx
        subst hx
        exact hlt
    · intro x hx
      rw [hkeys]
      rcases mem_insertQueue_elim hx with hx | rfl
      · exact List.mem_append_left _ (hqk x hx)
      · simp
    · intro x hx
      rw [hkeys] at hx
      rcases List.mem_append.mp hx with hx | hx
      · rcases hdis x hx with hx | hx
        · exact Or.inl (mem_insertQueue_of_mem hx ty)
        · exact Or.inr hx
      · simp only [List.mem_singleton] at hx
        subst hx
        exact Or.inl (mem_insertQueue_self s.1 x)
    · rw [hkeys]
      exact ⟨[ty], rfl⟩
    · rw [hkeys]
      simp

theorem childStep_spec (env : TypeEnv) (P : HeapType → Prop)
    {s : List HeapType × Counts} (h : PairInv env P s) {ch : HeapType}
    (hlt : env.isBasic ch = false → ch < env.numTypes) :
    PairInv env P (childStep env s ch) ∧
    GrowsFrom (keysOf s.2) (keysOf (childStep env s ch).2) ∧
    (∃ l, (childStep env s ch).1 = s.1 ++ l) ∧
    (env.isBasic ch = false → ch ∈ keysOf (childStep env s ch).2) := by
  by_cases hb : env.isBasic ch = true
  · rw [childStep_eq_basic env s hb]
    exact ⟨h, growsFrom_refl _, ⟨[], by simp⟩,
      fun hf => absurd hb (by simp [hf])⟩
  · have hb' : env.isBasic ch = false := by simpa using hb
    obtain ⟨hgood, hbnd, hqk, hdis⟩ := h
    by_cases hc : containsKey s.2 ch = true
    · have hm : ch ∈ keysOf s.2 := containsKey_iff.mp hc
      have hkeys : keysOf (note env s.2 ch) = keysOf s.2 := by
        rw [keysOf_note, if_pos (Or.inr hm)]
      rw [childStep_eq_present env s hb' hc]
      refine ⟨⟨goodCounts_note env hgood ch, ?_, ?_, ?_⟩, ?_, ⟨[], by simp⟩, ?_⟩
      · rw [hkeys]
        exact hbnd
      · intro x hx
        rw [hkeys]
        exact hqk x hx
      · rw [hkeys]
        exact hdis
      · rw [hkeys]
        exact growsFrom_refl _
      · intro _
        rw [hkeys]
        exact hm
    · have hc' : containsKey s.2 ch = false := by simpa using hc
      have hm : ch ∉ keysOf s.2 := fun hmm =>
        absurd (containsKey_iff.mpr hmm) hc
      have hkeys : keysOf (note env s.2 ch) = keysOf s.2 ++ [ch] := by
        rw [keysOf_note, if_neg (by simp [hb', hm])]
      rw [childStep_eq_absent env s hb' hc']
      refine ⟨⟨goodCounts_note env hgood ch, ?_, ?_, ?_⟩, ?_, ?_, ?_⟩
      · intro x hx
        rw [hkeys] at hx
        rcases List.mem_append.mp hx with hx | hx
        · exact hbnd x hx
        · simp only [List.mem_singleton] at hx
          subst hx
          exact hlt hb'
      · intro x hx
        rw [hkeys]
        rcases mem_insertQueue_elim hx with hx | rfl
        · exact List.mem_append_left _ (hqk x hx)
        · simp
      · intro x hx
        rw [hkeys] at hx
        rcases List.mem_append.mp hx with hx | hx
        · rcases hdis x hx with hx | hx
          · exact Or.inl (mem_insertQueue_of_mem hx ch)
          · exact Or.inr hx
        · simp only [List.mem_singleton] at hx
          subst hx
          exact Or.inl (mem_insertQueue_self s.1 x)
      · rw [hkeys]
        exact ⟨[ch], rfl⟩
      · exact insertQueue_extends s.1 ch
      · intro _
        rw [hkeys]
        simp

theorem childPhase_spec (env : TypeEnv) (P : HeapType → Prop) (t : HeapType)
    (hlt : ∀ ch ∈ env.children t, env.isBasic ch = false → ch < env.numTypes)
    {s : List HeapType × Counts} (h : PairInv env P s) :
    PairInv env P (childPhase env t s) ∧
    GrowsFrom (keysOf s.2) (keysOf (childPhase env t s).2) ∧
    (∃ l, (childPhase env t s).1 = s.1 ++ l) ∧
    (∀ ch ∈ env.children t, env.isBasic ch = false →
      ch ∈ keysOf (childPhase env t s).2) := by
  unfold childPhase
  have main : ∀ (l : List HeapType),
      (∀ ch ∈ l, env.isBasic ch = false → ch < env.numTypes) →
      ∀ s, PairInv env P s →
      PairInv env P (l.foldl (childStep env) s) ∧
      GrowsFrom (keysOf s.2) (keysOf (l.foldl (childStep env) s).2) ∧
      (∃ ll, (l.foldl (childStep env) s).1 = s.1 ++ ll) ∧
      (∀ ch ∈ l, env.isBasic ch = false →
        ch ∈ keysOf (l.foldl (childStep env) s).2) := by
    intro l
    induction l with
    | nil =>
      intro _ s hs
      exact ⟨hs, growsFrom_refl _, ⟨[], by simp⟩, by simp⟩
    | cons ch l ih =>
      intro hl s hs
      simp only [List.foldl_cons]
      obtain ⟨h1, h2, ⟨l1, hq1⟩, h4⟩ :=
        childStep_spec env P hs (hl ch (by simp))
      obtain ⟨g1, g2, ⟨l2, hq2⟩, g4⟩ :=
        ih (fun c hc hb => hl c (by simp [hc]) hb) _ h1
      refine ⟨g1, growsFrom_trans h2 g2,
        ⟨l1 ++ l2, by rw [hq2, hq1, List.append_assoc]⟩, ?_⟩
      intro c hc hb
      rcases List.mem_cons.mp hc with rfl | hc
      · exact mem_of_growsFrom g2 (h4 hb)
      · exact g4 c hc hb
  exact main (env.children t) hlt s h

theorem superPhase_spec (env : TypeEnv) (P : HeapType → Prop) (t : HeapType)
    (hsup : ∀ sup, env.superOf t = some sup →
      env.isBasic sup = false ∧ sup < env.numTypes)
    {s : List HeapType × Counts} (h : PairInv env P s) :
    PairInv env P (superPhase env t s) ∧
    GrowsFrom (keysOf s.2) (keysOf (superPhase env t s).2) ∧
    (∃ l, (superPhase env t s).1 = s.1 ++ l) ∧
    (∀ sup, env.superOf t = some sup →
      sup ∈ keysOf (superPhase env t s).2) := by
  cases hso : env.superOf t with
  | none =>
    rw [superPhase_eq_none env t s hso]
    refine ⟨h, growsFrom_refl _, ⟨[], by simp⟩, ?_⟩
    intro sup hs
    cases hs
  | some sup =>
    obtain ⟨hsb, hslt⟩ := hsup sup hso
    by_cases hc : containsKey s.2 sup = true
    · rw [superPhase_eq_present env t s hso hc]
      refine ⟨h, growsFrom_refl _, ⟨[], by simp⟩, ?_⟩
      intro sup0 hs0
      obtain rfl := Option.some.inj hs0
      exact containsKey_iff.mp hc
    · have hc' : containsKey s.2 sup = false := by simpa using hc
      rw [superPhase_eq_absent env t s hso hc']
      obtain ⟨h1, h2, h3⟩ :=
        pairStep_spec env P h hsb hslt (fun hg => goodCounts_incl env hg sup)
      refine ⟨h1, h2, insertQueue_extends s.1 sup, ?_⟩
      intro sup0 hs0
      obtain rfl := Option.some.inj hs0
      exact h3

theorem groupStep_spec (env : TypeEnv) (P : HeapType → Prop)
    {s : List HeapType × Counts} (h : PairInv env P s) {ty : HeapType}
    (hty : env.isBasic ty = false ∧ ty < env.numTypes) :
    PairInv env P (groupStep env s ty) ∧
    GrowsFrom (keysOf s.2) (keysOf (groupStep env s ty).2) ∧
    (∃ l, (groupStep env s ty).1 = s.1 ++ l) ∧
    ty ∈ keysOf (groupStep env s ty).2 := by
  by_cases hc : containsKey s.2 ty = true
  · rw [groupStep_eq_present env s hc]
    exact ⟨h, growsFrom_refl _, ⟨[], by simp⟩, containsKey_iff.mp hc⟩
  · have hc' : containsKey s.2 ty = false := by simpa using hc
    rw [groupStep_eq_absent env s hc']
    obtain ⟨h1, h2, h3⟩ :=
      pairStep_spec env P h hty.1 hty.2 (fun hg => goodCounts_incl env hg ty)
    exact ⟨h1, h2, insertQueue_extends s.1 ty, h3⟩

theorem groupFold_spec (env : TypeEnv) (P : HeapType → Prop) :
    ∀ (l : List HeapType),
      (∀ mm ∈ l, env.isBasic mm = false ∧ mm < env.numTypes) →
      ∀ s, PairInv env P s →
      PairInv env P (l.foldl (groupStep env) s) ∧
      GrowsFrom (keysOf s.2) (keysOf (l.foldl (groupStep env) s).2) ∧
      (∃ ll, (l.foldl (groupStep env) s).1 = s.1 ++ ll) ∧
      (∀ mm ∈ l, mm ∈ keysOf (l.foldl (groupStep env) s).2) := by
  intro l
  induction l with
  | nil =>
    intro _ s hs
    exact ⟨hs, growsFrom_refl _, ⟨[], by simp⟩, by simp⟩
  | cons ty l ih =>
    intro hl s hs
    simp only [List.foldl_cons]
    obtain ⟨h1, h2, ⟨l1, hq1⟩, h4⟩ := groupStep_spec env P hs (hl ty (by simp))
    obtain ⟨g1, g2, ⟨l2, hq2⟩, g4⟩ :=
      ih (fun c hc => hl c (by simp [hc])) _ h1
    refine ⟨g1, growsFrom_trans h2 g2,
      ⟨l1 ++ l2, by rw [hq2, hq1, List.append_assoc]⟩, ?_⟩
    intro c hc
    rcases List.mem_cons.mp hc with rfl | hc
    · exact mem_of_growsFrom g2 h4
    · exact g4 c hc

theorem groupPhase_spec (env : TypeEnv) (P : HeapType → Prop) (t : HeapType)
    (hmem : ∀ mm ∈ env.groupMembers (env.groupOf t),
      env.isBasic mm = false ∧ mm < env.numTypes)
    {s : List HeapType × Counts} (h : PairInv env P s)
    (groups : List RecGroupId) :
    PairInv env P ((groupPhase env t s groups).queue,
      (groupPhase env t s groups).counts) ∧
    GrowsFrom (keysOf s.2) (keysOf (groupPhase env t s groups).counts) ∧
    (∃ l, (groupPhase env t s groups).queue = s.1 ++ l) ∧
    (∃ lg, (groupPhase env t s groups).includedGroups = groups ++ lg) ∧
    env.groupOf t ∈ (groupPhase env t s groups).includedGroups ∧
    ((∀ g ∈ groups, ∀ mm ∈ env.groupMembers g, mm ∈ keysOf s.2) →
      ∀ g ∈ (groupPhase env t s groups).includedGroups,
        ∀ mm ∈ env.groupMembers g,
          mm ∈ keysOf (groupPhase env t s groups).counts) := by
  unfold groupPhase
  by_cases hg : env.groupOf t ∈ groups
  · rw [if_pos hg]
    exact ⟨h, growsFrom_refl _, ⟨[], by simp⟩, ⟨[], by simp⟩, hg,
      fun hpre => hpre⟩
  · rw [if_neg hg]
    obtain ⟨h1, h2, h3, h4⟩ :=
      groupFold_spec env P (env.groupMembers (env.groupOf t)) hmem s h
    refine ⟨h1, h2, h3, ⟨[env.groupOf t], rfl⟩, by simp, ?_⟩
    intro hpre g hg2 mm hmm
    rcases List.mem_append.mp hg2 with hg2 | hg2
    · exact mem_of_growsFrom h2 (hpre g hg2 mm hmm)
    · simp only [List.mem_singleton] at hg2
      subst hg2
      exact h4 mm hmm

theorem processedT_mono {env : TypeEnv} {c1 c2 : Counts}
    {g1 g2 : List RecGroupId} {t : HeapType}
    (hk : GrowsFrom (keysOf c1) (keysOf c2)) (hg : ∀ g ∈ g1, g ∈ g2)
    (h : ProcessedT env c1 g1 t) : ProcessedT env c2 g2 t := by
  obtain ⟨hch, hsup, hgrp⟩ := h
  exact ⟨fun ch hc hb => mem_of_growsFrom hk (hch ch hc hb),
    fun s hs => mem_of_growsFrom hk (hsup s hs), hg _ hgrp⟩

theorem cInv_closureStep (env : TypeEnv) (hwf : env.WF) (t : HeapType)
    (rest : List HeapType) (counts : Counts) (groups : List RecGroupId)
    (hinv : CInv env ⟨t :: rest, counts, groups⟩) :
    CInv env (closureStep env t rest counts groups) := by
  obtain ⟨hgood, hbnd, hqk, hdis, hgr⟩ := hinv
  have htk : t ∈ keysOf counts := hqk t (by simp)
  have htnb : env.isBasic t = false := hgood.2 t htk
  have htlt : t < env.numTypes := hbnd t htk
  obtain ⟨wch, wsup, wmem, wself, wnodup, wrefd⟩ := hwf t htlt htnb
  have hpair0 : PairInv env
      (fun x => x = t ∨ ProcessedT env counts groups x) (rest, counts) := by
    refine ⟨hgood, hbnd, ?_, ?_⟩
    · intro x hx
      exact hqk x (by simp [hx])
    · intro x hx
      rcases hdis x hx with hq | hp
      · rcases List.mem_cons.mp hq with rfl | hq
        · exact Or.inr (Or.inl rfl)
        · exact Or.inl hq
      · exact Or.inr (Or.inr hp)
  obtain ⟨hp1, hg1, ⟨l1, hq1⟩, hpost1⟩ :=
    childPhase_spec env _ t (fun ch hch _ => wch ch hch) hpair0
  obtain ⟨hp2, hg2, ⟨l2, hq2⟩, hpost2⟩ :=
    superPhase_spec env _ t
      (fun sup hs => ⟨(wsup sup hs).2, (wsup sup hs).1⟩) hp1
  obtain ⟨hp3, hg3, ⟨l3, hq3⟩, ⟨lg, hgroups⟩, hgmem, hgall⟩ :=
    groupPhase_spec env _ t
      (fun mm hmm => ⟨(wmem mm hmm).2.1, (wmem mm hmm).1⟩) hp2 groups
  show CInv env
    (groupPhase env t (superPhase env t (childPhase env t (rest, counts))) groups)
  obtain ⟨hgood3, hbnd3, hqk3, hdis3⟩ := hp3
  refine ⟨hgood3, hbnd3, hqk3, ?_, ?_⟩
  · intro x hx
    rcases hdis3 x hx with hq | hp
    · exact Or.inl hq
    · rcases hp with rfl | hp
      · refine Or.inr ⟨?_, ?_, ?_⟩
        · intro ch hch hb
          exact mem_of_growsFrom hg3 (mem_of_growsFrom hg2 (hpost1 ch hch hb))
        · intro s hs
          exact mem_of_growsFrom hg3 (hpost2 s hs)
        · exact hgmem
      · refine Or.inr (processedT_mono ?_ ?_ hp)
        · exact growsFrom_trans hg1 (growsFrom_trans hg2 hg3)
        · intro g hg
          rw [hgroups]
          exact List.mem_append_left _ hg
  · refine hgall ?_
    intro g hg mm hmm
    exact mem_of_growsFrom hg2 (mem_of_growsFrom hg1 (hgr g hg mm hmm))

theorem closureLoop_invState (env : TypeEnv) (P : ClosureState → Prop)
    (hstep : ∀ t rest counts groups, P ⟨t :: rest, counts, groups⟩ →
      P (closureStep env t rest counts groups)) :
    ∀ fuel st c', P st → closureLoop env fuel st = some c' →
      ∃ groups, P ⟨[], c', groups⟩ := by
  intro fuel
  induction fuel with
  | zero =>
    intro st c' hP hrun
    obtain ⟨q, c, g⟩ := st
    cases q with
    | nil =>
      simp only [closureLoop] at hrun
      cases hrun
      exact ⟨g, hP⟩
    | cons t rest => exact absurd hrun (by simp [closureLoop])
  | succ fuel ih =>
    intro st c' hP hrun
    obtain ⟨q, c, g⟩ := st
    cases q with
    | nil =>
      simp only [closureLoop] at hrun
      cases hrun
      exact ⟨g, hP⟩
    | cons t rest =>
      simp only [closureLoop] at hrun
      exact ih _ _ (hstep t rest c g hP) hrun

/-- Saturation of the closure: on a well-formed arena, every type in the
final map has its non-basic children, its supertype, and its whole
recursion group in the final map. -/
theorem getHeapTypeCounts_saturated (env : TypeEnv) (hwf : env.WF)
    (m : Module) (hbound : ∀ x ∈ keysOf (scanModule env m), x < env.numTypes)
    {c' : Counts} (h : getHeapTypeCounts env m = some c') :
    ∀ t ∈ keysOf c',
      (∀ ch ∈ env.children t, env.isBasic ch = false → ch ∈ keysOf c') ∧
      (∀ s, env.superOf t = some s → s ∈ keysOf c') ∧
      (∀ mm ∈ env.groupMembers (env.groupOf t), mm ∈ keysOf c') := by
  unfold getHeapTypeCounts at h
  have hinit : CInv env
      ⟨keysOf (scanModule env m), scanModule env m, []⟩ := by
    refine ⟨goodCounts_scanModule env m, hbound, fun x hx => hx,
      fun x hx => Or.inl hx, by simp⟩
  obtain ⟨groups, hfin⟩ := closureLoop_invState env (CInv env)
    (fun t rest counts groups hP =>
      cInv_closureStep env hwf t rest counts groups hP)
    _ _ _ hinit h
  obtain ⟨hgood, hbnd, hqk, hdis, hgr⟩ := hfin
  intro t ht
  rcases hdis t ht with hq | hp
  · cases hq
  · obtain ⟨hch, hsup, hgrp⟩ := hp
    exact ⟨hch, hsup, fun mm hmm => hgr _ hgrp mm hmm⟩

/-- The final map also keeps its keys bounded on a well-formed arena. -/
theorem getHeapTypeCounts_bounded (env : TypeEnv) (hwf : env.WF)
    (m : Module) (hbound : ∀ x ∈ keysOf (scanModule env m), x < env.numTypes)
    {c' : Counts} (h : getHeapTypeCounts env m = some c') :
    ∀ x ∈ keysOf c', x < env.numTypes := by
  unfold getHeapTypeCounts at h
  have hinit : CInv env
      ⟨keysOf (scanModule env m), scanModule env m, []⟩ := by
    refine ⟨goodCounts_scanModule env m, hbound, fun x hx => hx,
      fun x hx => Or.inl hx, by simp⟩
  obtain ⟨groups, hfin⟩ := closureLoop_invState env (CInv env)
    (fun t rest counts groups hP =>
      cInv_closureStep env hwf t rest counts groups hP)
    _ _ _ hinit h
  exact hfin.2.1

/-! Specification of the topological visit. -/

theorem topoVisit_eq_out (predsOf : RecGroupId → List RecGroupId)
    (fuel : Nat) (g : RecGroupId) (gray out : List RecGroupId)
    (hgo : g ∈ out) :
    topoVisit predsOf (fuel + 1) g gray out = some out := by
  simp [topoVisit, hgo]

theorem topoVisit_eq_some (predsOf : RecGroupId → List RecGroupId)
    {fuel : Nat} {g : RecGroupId} {gray out o : List RecGroupId}
    (hgo : g ∉ out) (hgg : g ∉ gray)
    (hf : (predsOf g).foldlM
      (fun o p => topoVisit predsOf fuel p (g :: gray) o) out = some o) :
    topoVisit predsOf (fuel + 1) g gray out = some (o ++ [g]) := by
  simp [topoVisit, hgo, hgg, hf]

theorem topoVisit_eq_noneF (predsOf : RecGroupId → List RecGroupId)
    {fuel : Nat} {g : RecGroupId} {gray out : List RecGroupId}
    (hgo : g ∉ out) (hgg : g ∉ gray)
    (hf : (predsOf g).foldlM
      (fun o p => topoVisit predsOf fuel p (g :: gray) o) out = Option.none) :
    topoVisit predsOf (fuel + 1) g gray out = Option.none := by
  simp [topoVisit, hgo, hgg, hf]

theorem topoFold_spec (predsOf : RecGroupId → List RecGroupId)
    (K : List RecGroupId) (hK : ∀ g ∈ K, ∀ p ∈ predsOf g, p ∈ K)
    (fuel : Nat) (IH : VisitSpec predsOf K fuel) :
    ∀ (l : List RecGroupId) (gray out out' : List RecGroupId),
      l.foldlM (fun o p => topoVisit predsOf fuel p gray o) out = some out' →
      (∃ d, out' = out ++ d ∧ ∀ x ∈ gray, x ∉ d) ∧
      (∀ p ∈ l, p ∈ out') ∧
      (out.Nodup → out'.Nodup) ∧
      (TopoGood predsOf out → TopoGood predsOf out') ∧
      ((∀ p ∈ l, p ∈ K) → (∀ x ∈ out, x ∈ K) → ∀ x ∈ out', x ∈ K) := by
  intro l
  induction l with
  | nil =>
    intro gray out out' h
    simp only [List.foldlM_nil] at h
    cases h
    exact ⟨⟨[], by simp, by simp⟩, by simp, id, id, fun _ h2 => h2⟩
  | cons p l ih =>
    intro gray out out' h
    rw [List.foldlM_cons] at h
    cases hv : topoVisit predsOf fuel p gray out with
    | none =>
      rw [hv] at h
      cases h
    | some o =>
      rw [hv] at h
      obtain ⟨⟨d1, ho, hd1⟩, hp1, hnd1, hgood1, hK1⟩ := IH p gray out o hv
      obtain ⟨⟨d2, ho2, hd2⟩, hp2, hnd2, hgood2, hK2⟩ := ih gray o out' h
      refine ⟨⟨d1 ++ d2, by rw [ho2, ho, List.append_assoc], ?_⟩, ?_,
        fun hnd => hnd2 (hnd1 hnd), fun hg => hgood2 (hgood1 hg), ?_⟩
      · intro x hx hc
        rcases List.mem_append.mp hc with hc | hc
        · exact hd1 x hx hc
        · exact hd2 x hx hc
      · intro q hq
        rcases List.mem_cons.mp hq with rfl | hq
        · rw [ho2]
          exact List.mem_append_left _ hp1
        · exact hp2 q hq
      · intro hl hout
        exact hK2 (fun q hq => hl q (List.mem_cons_of_mem p hq))
          (hK1 (hl p (List.mem_cons_self p l)) hout)

theorem topoVisit_spec (predsOf : RecGroupId → List RecGroupId)
    (K : List RecGroupId) (hK : ∀ g ∈ K, ∀ p ∈ predsOf g, p ∈ K) :
    ∀ fuel, VisitSpec predsOf K fuel := by
  intro fuel
  induction fuel with
  | zero =>
    intro g gray out out' h
    cases h
  | succ fuel ih =>
    intro g gray out out' h
    by_cases hgo : g ∈ out
    · rw [topoVisit_eq_out predsOf fuel g gray out hgo] at h
      cases h
      exact ⟨⟨[], by simp, by simp⟩, hgo, id, id, fun _ h2 => h2⟩
    · by_cases hgg : g ∈ gray
      · have : topoVisit predsOf (fuel + 1) g gray out = Option.none := by
          simp [topoVisit, hgo, hgg]
        rw [this] at h
        cases h
      · cases hf : (predsOf g).foldlM
          (fun o p => topoVisit predsOf fuel p (g :: gray) o) out with
        | none =>
          rw [topoVisit_eq_noneF predsOf hgo hgg hf] at h
          cases h
        | some o =>
          rw [topoVisit_eq_some predsOf hgo hgg hf] at h
          obtain rfl : o ++ [g] = out' := Option.some.inj h
          obtain ⟨⟨d, ho, hd⟩, hpl, hnd, hgood, hKf⟩ :=
            topoFold_spec predsOf K hK fuel ih (predsOf g) (g :: gray) out o hf
          have hgno : g ∉ o := by
            rw [ho]
            intro hc
            rcases List.mem_append.mp hc with hc | hc
            · exact hgo hc
            · exact hd g (List.mem_cons_self g gray) hc
          refine ⟨⟨d ++ [g], by rw [ho, List.append_assoc], ?_⟩, by simp, ?_,
            ?_, ?_⟩
          · intro x hx hc
            rcases List.mem_append.mp hc with hc | hc
            · exact hd x (List.mem_cons_of_mem g hx) hc
            · simp only [List.mem_singleton] at hc
              subst hc
              exact hgg hx
          · intro hout
            refine List.Nodup.append (hnd hout) (by simp) ?_
            simp only [List.disjoint_singleton]
            exact hgno
          · intro hG g0 hg0 p hp
            rcases List.mem_append.mp hg0 with hg0 | hg0
            · obtain ⟨l1, l2, hsplit, hpin⟩ := hgood hG g0 hg0 p hp
              exact ⟨l1, l2 ++ [g], by rw [hsplit]; simp, hpin⟩
            · simp only [List.mem_singleton] at hg0
              subst hg0
              exact ⟨o, [], rfl, hpl p hp⟩
          · intro hgK houtK x hx
            rcases List.mem_append.mp hx with hx | hx
            · exact hKf (hK g hgK) houtK x hx
            · simp only [List.mem_singleton] at hx
              subst hx
              exact hgK

theorem topoSort_spec (predsOf : RecGroupId → List RecGroupId)
    (K : List RecGroupId) (hK : ∀ g ∈ K, ∀ p ∈ predsOf g, p ∈ K)
    (fuel : Nat) (seeds out' : List RecGroupId)
    (h : topoSort predsOf fuel seeds = some out') :
    (∀ s ∈ seeds, s ∈ out') ∧ out'.Nodup ∧ TopoGood predsOf out' ∧
    ((∀ s ∈ seeds, s ∈ K) → ∀ x ∈ out', x ∈ K) := by
  unfold topoSort at h
  obtain ⟨_, hp, hnd, hgood, hKf⟩ :=
    topoFold_spec predsOf K hK fuel (topoVisit_spec predsOf K hK fuel)
      seeds [] [] out' h
  exact ⟨hp, hnd (by simp), hgood (fun g hg => absurd hg (by simp)),
    fun hs => hKf hs (by simp)⟩

/-! Characterization of the group-info construction. -/

theorem lookupG_cons_self {β : Type} {p : Nat × β} {l : List (Nat × β)} :
    (p :: l).lookup p.1 = some p.2 := by
  simp [List.lookup]

theorem lookupG_cons_ne {β : Type} {p : Nat × β} {l : List (Nat × β)}
    {k : Nat} (h : k ≠ p.1) : (p :: l).lookup k = l.lookup k := by
  have hbeq : (k == p.1) = false := by simpa using h
  simp [List.lookup, hbeq]

theorem lookupG_isSome_iff {β : Type} {l : List (Nat × β)} {k : Nat} :
    (l.lookup k).isSome = true ↔ k ∈ l.map (fun q => q.1) := by
  induction l with
  | nil => simp
  | cons p l ih =>
    by_cases h : k = p.1
    · subst h
      simp [lookupG_cons_self]
    · rw [lookupG_cons_ne h]
      simp only [List.map_cons, List.mem_cons]
      rw [ih]
      constructor
      · exact fun hm => Or.inr hm
      · rintro (hm | hm)
        · exact absurd hm h
        · exact hm

theorem lookupG_append_left {β : Type} {l1 : List (Nat × β)} {k : Nat}
    {v : β} (h : l1.lookup k = some v) (l2 : List (Nat × β)) :
    (l1 ++ l2).lookup k = some v := by
  induction l1 with
  | nil => cases h
  | cons p l ih =>
    by_cases hk : k = p.1
    · subst hk
      rw [lookupG_cons_self] at h
      simpa [lookupG_cons_self] using h
    · rw [lookupG_cons_ne hk] at h
      rw [List.cons_append, lookupG_cons_ne hk]
      exact ih h

theorem lookupG_append_right {β : Type} {l1 : List (Nat × β)} {k : Nat}
    (h : l1.lookup k = Option.none) (l2 : List (Nat × β)) :
    (l1 ++ l2).lookup k = l2.lookup k := by
  induction l1 with
  | nil => rfl
  | cons p l ih =>
    by_cases hk : k = p.1
    · subst hk
      rw [lookupG_cons_self] at h
      cases h
    · rw [lookupG_cons_ne hk] at h
      rw [List.cons_append, lookupG_cons_ne hk]
      exact ih h

theorem lookupG_eq_none {β : Type} {l : List (Nat × β)} {k : Nat}
    (h : k ∉ l.map (fun q => q.1)) : l.lookup k = Option.none := by
  cases hl : l.lookup k
  · rfl
  · exact absurd (lookupG_isSome_iff.mp (by simp [hl])) h

theorem lookup_updateInfo_self (m : GroupInfoMap) (g : RecGroupId)
    (f : GroupInfo → GroupInfo) :
    (updateInfo m g f).lookup g = (m.lookup g).map f := by
  induction m with
  | nil => rfl
  | cons q m ih =>
    show ((if q.1 = g then (q.1, f q.2) else q) :: updateInfo m g f).lookup g
      = ((q :: m).lookup g).map f
    by_cases hq : q.1 = g
    · subst hq
      rw [if_pos rfl]
      simp [List.lookup]
    · have hne : g ≠ q.1 := fun hc => hq hc.symm
      rw [if_neg hq, lookupG_cons_ne hne, lookupG_cons_ne hne]
      exact ih

theorem lookup_updateInfo_other (m : GroupInfoMap) (g : RecGroupId)
    (f : GroupInfo → GroupInfo) {g' : RecGroupId} (h : g' ≠ g) :
    (updateInfo m g f).lookup g' = m.lookup g' := by
  induction m with
  | nil => rfl
  | cons q m ih =>
    show ((if q.1 = g then (q.1, f q.2) else q) :: updateInfo m g f).lookup g'
      = (q :: m).lookup g'
    by_cases hq : g' = q.1
    · subst hq
      rw [if_neg (fun hc => h hc)]
      rw [lookupG_cons_self, lookupG_cons_self]
    · by_cases hqg : q.1 = g
      · rw [if_pos hqg]
        rw [show ((q.1, f q.2) :: updateInfo m g f).lookup g'
            = (updateInfo m g f).lookup g' from lookupG_cons_ne hq,
          lookupG_cons_ne hq]
        exact ih
      · rw [if_neg hqg, lookupG_cons_ne hq, lookupG_cons_ne hq]
        exact ih

theorem gkeys_updateInfo (m : GroupInfoMap) (g : RecGroupId)
    (f : GroupInfo → GroupInfo) : gkeys (updateInfo m g f) = gkeys m := by
  simp only [gkeys, updateInfo, List.map_map]
  congr 1
  funext q
  by_cases h : q.1 = g <;> simp [h]

theorem groupInsert_lookup_present {m : GroupInfoMap} {g : RecGroupId}
    {i : GroupInfo} (h : m.lookup g = some i) :
    groupInsert m g = m := by
  simp [groupInsert, h]

theorem groupInsert_lookup_absent {m : GroupInfoMap} {g : RecGroupId}
    (h : m.lookup g = Option.none) :
    groupInsert m g = m ++ [(g, ⟨m.length, ⟨0, 1⟩, [], []⟩)] := by
  simp [groupInsert, h]

theorem groupInsert_self (m : GroupInfoMap) (g : RecGroupId) :
    ∃ i, (groupInsert m g).lookup g = some i ∧
      (∀ i0, m.lookup g = some i0 → i = i0) ∧
      (m.lookup g = Option.none → i = ⟨m.length, ⟨0, 1⟩, [], []⟩) := by
  cases hl : m.lookup g with
  | none =>
    refine ⟨⟨m.length, ⟨0, 1⟩, [], []⟩, ?_, ?_, fun _ => rfl⟩
    · rw [groupInsert_lookup_absent hl, lookupG_append_right hl]
      simp [List.lookup]
    · intro i0 h0
      cases h0
  | some i0 =>
    refine ⟨i0, ?_, ?_, ?_⟩
    · rw [groupInsert_lookup_present hl]
      exact hl
    · intro i1 h1
      exact Option.some.inj h1
    · intro h1
      cases h1

theorem groupInsert_other (m : GroupInfoMap) (g : RecGroupId)
    {g' : RecGroupId} (h : g' ≠ g) :
    (groupInsert m g).lookup g' = m.lookup g' := by
  cases hl : m.lookup g with
  | none =>
    rw [groupInsert_lookup_absent hl]
    cases hl' : m.lookup g' with
    | none =>
      rw [lookupG_append_right hl']
      exact lookupG_cons_ne h
    | some i => exact lookupG_append_left hl' _
  | some i => rw [groupInsert_lookup_present hl]

theorem gkeys_groupInsert (m : GroupInfoMap) (g : RecGroupId) :
    gkeys (groupInsert m g) = if g ∈ gkeys m then gkeys m else gkeys m ++ [g] := by
  by_cases hm : g ∈ gkeys m
  · have : (m.lookup g).isSome = true := lookupG_isSome_iff.mpr hm
    obtain ⟨i, hi⟩ := Option.isSome_iff_exists.mp this
    rw [groupInsert_lookup_present hi, if_pos hm]
  · have : m.lookup g = Option.none := lookupG_eq_none hm
    rw [groupInsert_lookup_absent this, if_neg hm]
    simp [gkeys]

theorem isoFold_spec (env : TypeEnv) (g : RecGroupId) :
    ∀ (l : List HeapType) (ps : List RecGroupId),
      (∀ x ∈ ps, x ∈ l.foldl (isoPredStep env g) ps) ∧
      (∀ x ∈ l.foldl (isoPredStep env g) ps, x ∈ ps ∨
        ∃ r ∈ l, env.isBasic r = false ∧ env.groupOf r = x ∧ x ≠ g) ∧
      (∀ r ∈ l, env.isBasic r = false → env.groupOf r ≠ g →
        env.groupOf r ∈ l.foldl (isoPredStep env g) ps) := by
  intro l
  induction l with
  | nil => exact fun ps => ⟨fun x hx => hx, fun x hx => Or.inl hx, by simp⟩
  | cons r l ih =>
    intro ps
    simp only [List.foldl_cons]
    have hstep : (∀ x ∈ ps, x ∈ isoPredStep env g ps r) ∧
        (∀ x ∈ isoPredStep env g ps r, x ∈ ps ∨
          (env.isBasic r = false ∧ env.groupOf r = x ∧ x ≠ g)) ∧
        (env.isBasic r = false → env.groupOf r ≠ g →
          env.groupOf r ∈ isoPredStep env g ps r) := by
      unfold isoPredStep
      by_cases hb : env.isBasic r = true
      · rw [if_pos hb]
        exact ⟨fun x hx => hx, fun x hx => Or.inl hx,
          fun hf => absurd hb (by simp [hf])⟩
      · have hb' : env.isBasic r = false := by simpa using hb
        rw [if_neg hb]
        by_cases hg : env.groupOf r ≠ g
        · rw [if_pos hg]
          refine ⟨fun x hx => mem_insertQueue_of_mem hx _, ?_, ?_⟩
          · intro x hx
            rcases mem_insertQueue_elim hx with hx | rfl
            · exact Or.inl hx
            · exact Or.inr ⟨hb', rfl, hg⟩
          · intro _ _
            exact mem_insertQueue_self ps (env.groupOf r)
        · rw [if_neg hg]
          exact ⟨fun x hx => hx, fun x hx => Or.inl hx, fun _ hc => absurd hc hg⟩
    obtain ⟨s1, s2, s3⟩ := hstep
    obtain ⟨i1, i2, i3⟩ := ih (isoPredStep env g ps r)
    refine ⟨fun x hx => i1 x (s1 x hx), ?_, ?_⟩
    · intro x hx
      rcases i2 x hx with hx | ⟨r0, hr0, hrest⟩
      · rcases s2 x hx with hx | ⟨hb, hgr, hne⟩
        · exact Or.inl hx
        · exact Or.inr ⟨r, by simp, hb, hgr, hne⟩
      · exact Or.inr ⟨r0, by simp [hr0], hrest⟩
    · intro r0 hr0 hb hg
      rcases List.mem_cons.mp hr0 with rfl | hr0
      · exact i1 _ (s3 hb hg)
      · exact i3 r0 hr0 hb hg

theorem addPreds_spec (env : TypeEnv) (system : TypeSystem) (t : HeapType)
    (g : RecGroupId) {ps ps' : List RecGroupId}
    (h : addPreds env system t g ps = some ps') :
    (∀ x ∈ ps, x ∈ ps') ∧
    (∀ x ∈ ps', x ∈ ps ∨ PredContrib env system t g x) ∧
    (∀ p0, PredContrib env system t g p0 → p0 ∈ ps') := by
  cases system with
  | Equirecursive => cases h
  | Isorecursive =>
    obtain rfl : (env.refd t).foldl (isoPredStep env g) ps = ps' :=
      Option.some.inj h
    obtain ⟨h1, h2, h3⟩ := isoFold_spec env g (env.refd t) ps
    refine ⟨h1, ?_, ?_⟩
    · intro x hx
      rcases h2 x hx with hx | ⟨r, hr, hb, hgr, hne⟩
      · exact Or.inl hx
      · exact Or.inr ⟨r, hr, hb, hgr, hne⟩
    · rintro p0 ⟨r, hr, hb, hgr, hne⟩
      exact hgr ▸ h3 r hr hb (hgr ▸ hne)
  | Nominal =>
    cases hso : env.superOf t with
    | none =>
      rw [addPreds, hso] at h
      obtain rfl : ps = ps' := Option.some.inj h
      refine ⟨fun x hx => hx, fun x hx => Or.inl hx, ?_⟩
      rintro p0 ⟨s, hs, hgs⟩
      rw [hso] at hs
      cases hs
    | some sup =>
      rw [addPreds, hso] at h
      obtain rfl : insertQueue ps (env.groupOf sup) = ps' := Option.some.inj h
      refine ⟨fun x hx => mem_insertQueue_of_mem hx _, ?_, ?_⟩
      · intro x hx
        rcases mem_insertQueue_elim hx with hx | rfl
        · exact Or.inl hx
        · exact Or.inr ⟨sup, hso, rfl⟩
      · rintro p0 ⟨s, hs, hgs⟩
        rw [hso] at hs
        obtain rfl := Option.some.inj hs
        exact hgs ▸ mem_insertQueue_self ps (env.groupOf sup)

/-- The shape of one successful group-info step. -/
theorem buildGroupInfosStep_eq (env : TypeEnv) (system : TypeSystem)
    (m : GroupInfoMap) (p : HeapType × Nat) {m' : GroupInfoMap}
    (h : buildGroupInfosStep env system m p = some m') :
    ∃ ps, addPreds env system p.1 (env.groupOf p.1)
        (infoOf (updateInfo (groupInsert m (env.groupOf p.1)) (env.groupOf p.1)
          (fun i => { i with useCount := i.useCount.addNat p.2 }))
          (env.groupOf p.1)).preds = some ps ∧
      m' = updateInfo (updateInfo (groupInsert m (env.groupOf p.1))
        (env.groupOf p.1)
        (fun i => { i with useCount := i.useCount.addNat p.2 }))
        (env.groupOf p.1) (fun i => { i with preds := ps }) := by
  unfold buildGroupInfosStep at h
  dsimp only at h
  cases haps : addPreds env system p.1 (env.groupOf p.1)
      (infoOf (updateInfo (groupInsert m (env.groupOf p.1)) (env.groupOf p.1)
        (fun i => { i with useCount := i.useCount.addNat p.2 }))
        (env.groupOf p.1)).preds with
  | none =>
    rw [haps] at h
    cases h
  | some ps =>
    rw [haps] at h
    exact ⟨ps, rfl, (Option.some.inj h).symm⟩

/-- Keys after one group-info step. -/
theorem buildGroupInfosStep_keys (env : TypeEnv) (system : TypeSystem)
    (m : GroupInfoMap) (p : HeapType × Nat) {m' : GroupInfoMap}
    (h : buildGroupInfosStep env system m p = some m') :
    gkeys m' = if env.groupOf p.1 ∈ gkeys m then gkeys m
      else gkeys m ++ [env.groupOf p.1] := by
  obtain ⟨ps, _, rfl⟩ := buildGroupInfosStep_eq env system m p h
  rw [gkeys_updateInfo, gkeys_updateInfo, gkeys_groupInsert]

/-- Preds after one group-info step, for the touched group. -/
theorem buildGroupInfosStep_self (env : TypeEnv) (system : TypeSystem)
    (m : GroupInfoMap) (p : HeapType × Nat) {m' : GroupInfoMap}
    (h : buildGroupInfosStep env system m p = some m') :
    ∃ i', m'.lookup (env.groupOf p.1) = some i' ∧
      (∀ x ∈ i'.preds,
        (∃ i0, m.lookup (env.groupOf p.1) = some i0 ∧ x ∈ i0.preds) ∨
        PredContrib env system p.1 (env.groupOf p.1) x) ∧
      (∀ i0, m.lookup (env.groupOf p.1) = some i0 →
        ∀ x ∈ i0.preds, x ∈ i'.preds) ∧
      (∀ p0, PredContrib env system p.1 (env.groupOf p.1) p0 →
        p0 ∈ i'.preds) := by
  obtain ⟨ps, haps, rfl⟩ := buildGroupInfosStep_eq env system m p h
  obtain ⟨i1, hi1, hi1old, hi1new⟩ := groupInsert_self m (env.groupOf p.1)
  have hl2 : (updateInfo (groupInsert m (env.groupOf p.1)) (env.groupOf p.1)
      (fun i => { i with useCount := i.useCount.addNat p.2 })).lookup
        (env.groupOf p.1)
      = some { i1 with useCount := i1.useCount.addNat p.2 } := by
    rw [lookup_updateInfo_self, hi1]
    rfl
  have hpreds2 : (infoOf (updateInfo (groupInsert m (env.groupOf p.1))
      (env.groupOf p.1) (fun i => { i with useCount := i.useCount.addNat p.2 }))
      (env.groupOf p.1)).preds = i1.preds := by
    unfold infoOf
    rw [hl2]
    rfl
  rw [hpreds2] at haps
  obtain ⟨ha1, ha2, ha3⟩ := addPreds_spec env system p.1 (env.groupOf p.1) haps
  refine ⟨{ i1 with useCount := i1.useCount.addNat p.2, preds := ps }, ?_, ?_, ?_, ?_⟩
  · rw [lookup_updateInfo_self, hl2]
    rfl
  · intro x hx
    rcases ha2 x hx with hx | hx
    · cases hml : m.lookup (env.groupOf p.1) with
      | none =>
        rw [hi1new hml] at hx
        cases hx
      | some i0 =>
        exact Or.inl ⟨i0, rfl, by rw [hi1old i0 hml] at hx; exact hx⟩
    · exact Or.inr hx
  · intro i0 h0 x hx
    apply ha1
    rw [hi1old i0 h0]
    exact hx
  · exact ha3

/-- Other groups are untouched by one group-info step. -/
theorem buildGroupInfosStep_other (env : TypeEnv) (system : TypeSystem)
    (m : GroupInfoMap) (p : HeapType × Nat) {m' : GroupInfoMap}
    (h : buildGroupInfosStep env system m p = some m') {g' : RecGroupId}
    (hne : g' ≠ env.groupOf p.1) : m'.lookup g' = m.lookup g' := by
  obtain ⟨ps, _, rfl⟩ := buildGroupInfosStep_eq env system m p h
  rw [lookup_updateInfo_other _ _ _ hne, lookup_updateInfo_other _ _ _ hne,
    groupInsert_other _ _ hne]

theorem buildGroupInfosStep_keys_mono (env : TypeEnv) (system : TypeSystem)
    (m : GroupInfoMap) (p : HeapType × Nat) {m' : GroupInfoMap}
    (h : buildGroupInfosStep env system m p = some m') :
    (∀ g ∈ gkeys m, g ∈ gkeys m') ∧ env.groupOf p.1 ∈ gkeys m' ∧
    (∀ g ∈ gkeys m', g ∈ gkeys m ∨ g = env.groupOf p.1) := by
  rw [buildGroupInfosStep_keys env system m p h]
  by_cases hin : env.groupOf p.1 ∈ gkeys m
  · rw [if_pos hin]
    exact ⟨fun g hg => hg, hin, fun g hg => Or.inl hg⟩
  · rw [if_neg hin]
    refine ⟨fun g hg => List.mem_append_left _ hg, by simp, ?_⟩
    intro g hg
    rcases List.mem_append.mp hg with hg | hg
    · exact Or.inl hg
    · simp only [List.mem_singleton] at hg
      exact Or.inr hg

theorem buildGroupInfos_fold_spec (env : TypeEnv) (system : TypeSystem) :
    ∀ (l : Counts) (m0 infos : GroupInfoMap),
      l.foldlM (buildGroupInfosStep env system) m0 = some infos →
      (∀ g ∈ gkeys m0, g ∈ gkeys infos) ∧
      (∀ g ∈ gkeys infos, g ∈ gkeys m0 ∨ ∃ q ∈ l, env.groupOf q.1 = g) ∧
      (∀ q ∈ l, env.groupOf q.1 ∈ gkeys infos) ∧
      (∀ g i0, m0.lookup g = some i0 →
        ∃ i, infos.lookup g = some i ∧ ∀ x ∈ i0.preds, x ∈ i.preds) ∧
      (∀ g i, infos.lookup g = some i → ∀ x ∈ i.preds,
        (∃ i0, m0.lookup g = some i0 ∧ x ∈ i0.preds) ∨
        ∃ q ∈ l, env.groupOf q.1 = g ∧ PredContrib env system q.1 g x) ∧
      (∀ q ∈ l, ∀ p0, PredContrib env system q.1 (env.groupOf q.1) p0 →
        ∃ i, infos.lookup (env.groupOf q.1) = some i ∧ p0 ∈ i.preds) := by
  intro l
  induction l with
  | nil =>
    intro m0 infos h
    simp only [List.foldlM_nil] at h
    cases h
    exact ⟨fun g hg => hg, fun g hg => Or.inl hg, by simp,
      fun g i0 h0 => ⟨i0, h0, fun x hx => hx⟩,
      fun g i hi x hx => Or.inl ⟨i, hi, hx⟩, by simp⟩
  | cons q l ih =>
    intro m0 infos h
    rw [List.foldlM_cons] at h
    cases hstep : buildGroupInfosStep env system m0 q with
    | none =>
      rw [hstep] at h
      cases h
    | some m1 =>
      rw [hstep] at h
      obtain ⟨k1, k2, k3, k4, k5, k6⟩ := ih m1 infos h
      obtain ⟨km, kg, kcases⟩ :=
        buildGroupInfosStep_keys_mono env system m0 q hstep
      obtain ⟨i', hi', hsrc, hmono, hadd⟩ :=
        buildGroupInfosStep_self env system m0 q hstep
      refine ⟨?_, ?_, ?_, ?_, ?_, ?_⟩
      · exact fun g hg => k1 g (km g hg)
      · intro g hg
        rcases k2 g hg with hg | ⟨q0, hq0, hgq⟩
        · rcases kcases g hg with hg | rfl
          · exact Or.inl hg
          · exact Or.inr ⟨q, by simp, rfl⟩
        · exact Or.inr ⟨q0, by simp [hq0], hgq⟩
      · intro q0 hq0
        rcases List.mem_cons.mp hq0 with rfl | hq0
        · exact k1 _ kg
        · exact k3 q0 hq0
      · intro g i0 h0
        by_cases hgq : g = env.groupOf q.1
        · subst hgq
          obtain ⟨i2, hi2, hp2⟩ := k4 _ i' hi'
          exact ⟨i2, hi2, fun x hx => hp2 x (hmono i0 h0 x hx)⟩
        · obtain ⟨i2, hi2, hp2⟩ := k4 g i0
            (by rw [buildGroupInfosStep_other env system m0 q hstep hgq]
                exact h0)
          exact ⟨i2, hi2, hp2⟩
      · intro g i hi x hx
        rcases k5 g i hi x hx with ⟨i1, hi1, hx1⟩ | ⟨q0, hq0, hgq, hc⟩
        · by_cases hgq : g = env.groupOf q.1
          · subst hgq
            rw [hi'] at hi1
            obtain rfl := Option.some.inj hi1
            rcases hsrc x hx1 with ⟨i0, h0, hx0⟩ | hc
            · exact Or.inl ⟨i0, h0, hx0⟩
            · exact Or.inr ⟨q, by simp, rfl, hc⟩
          · rw [buildGroupInfosStep_other env system m0 q hstep hgq] at hi1
            exact Or.inl ⟨i1, hi1, hx1⟩
        · exact Or.inr ⟨q0, by simp [hq0], hgq, hc⟩
      · intro q0 hq0 p0 hp0
        rcases List.mem_cons.mp hq0 with rfl | hq0
        · obtain ⟨i2, hi2, hp2⟩ := k4 _ i' hi'
          exact ⟨i2, hi2, hp2 p0 (hadd p0 hp0)⟩
        · exact k6 q0 hq0 p0 hp0

theorem buildGroupInfos_keys (env : TypeEnv) (system : TypeSystem)
    {counts : Counts} {infos : GroupInfoMap}
    (h : buildGroupInfos env system counts = some infos) :
    (∀ g ∈ gkeys infos, ∃ q ∈ counts, env.groupOf q.1 = g) ∧
    (∀ q ∈ counts, env.groupOf q.1 ∈ gkeys infos) := by
  obtain ⟨_, k2, k3, _, _, _⟩ := buildGroupInfos_fold_spec env system counts [] infos h
  refine ⟨?_, k3⟩
  intro g hg
  rcases k2 g hg with hg | hg
  · cases hg
  · exact hg

theorem buildGroupInfos_preds_src (env : TypeEnv) (system : TypeSystem)
    {counts : Counts} {infos : GroupInfoMap}
    (h : buildGroupInfos env system counts = some infos) :
    ∀ g i, infos.lookup g = some i → ∀ x ∈ i.preds,
      ∃ q ∈ counts, env.groupOf q.1 = g ∧ PredContrib env system q.1 g x := by
  obtain ⟨_, _, _, _, k5, _⟩ := buildGroupInfos_fold_spec env system counts [] infos h
  intro g i hi x hx
  rcases k5 g i hi x hx with ⟨i0, h0, _⟩ | hg
  · cases h0
  · exact hg

theorem buildGroupInfos_preds_complete (env : TypeEnv) (system : TypeSystem)
    {counts : Counts} {infos : GroupInfoMap}
    (h : buildGroupInfos env system counts = some infos) :
    ∀ q ∈ counts, ∀ p0, PredContrib env system q.1 (env.groupOf q.1) p0 →
      ∃ i, infos.lookup (env.groupOf q.1) = some i ∧ p0 ∈ i.preds := by
  obtain ⟨_, _, _, _, _, k6⟩ := buildGroupInfos_fold_spec env system counts [] infos h
  exact k6

/-- Lookup through a key-preserving value map. -/
theorem lookup_mapVal (f : RecGroupId → GroupInfo → GroupInfo)
    (m : GroupInfoMap) (g : RecGroupId) :
    (m.map (fun q => (q.1, f q.1 q.2))).lookup g = (m.lookup g).map (f g) := by
  induction m with
  | nil => rfl
  | cons q m ih =>
    by_cases hq : g = q.1
    · subst hq
      show ((q.1, f q.1 q.2) :: m.map (fun q => (q.1, f q.1 q.2))).lookup q.1
        = ((q :: m).lookup q.1).map (f q.1)
      simp [List.lookup]
    · show ((q.1, f q.1 q.2) :: m.map (fun q => (q.1, f q.1 q.2))).lookup g
        = ((q :: m).lookup g).map (f g)
      have hbeq : (g == q.1) = false := by simpa using hq
      simp only [List.lookup, hbeq]
      exact ih

theorem gkeys_mapVal (f : RecGroupId → GroupInfo → GroupInfo)
    (m : GroupInfoMap) :
    gkeys (m.map (fun q => (q.1, f q.1 q.2))) = gkeys m := by
  simp [gkeys, List.map_map]

theorem fixAverages_nominal (env : TypeEnv) (m : GroupInfoMap) :
    fixAverages env TypeSystem.Nominal m = m := by
  simp [fixAverages]

theorem fixAverages_eq_mapVal (env : TypeEnv) {system : TypeSystem}
    (hs : system ≠ TypeSystem.Nominal) (m : GroupInfoMap) :
    fixAverages env system m = m.map (fun q => (q.1,
      (⟨q.2.index, q.2.useCount.divNat (env.groupMembers q.1).length,
        q.2.preds, q.2.sortedPreds⟩ : GroupInfo))) := by
  unfold fixAverages
  rw [if_neg hs]

theorem sortPreds_eq_mapVal (m : GroupInfoMap) :
    sortPreds m = m.map (fun q => (q.1,
      (⟨q.2.index, q.2.useCount, [], sortGroups m q.2.preds⟩ : GroupInfo))) := rfl

theorem gkeys_fixAverages (env : TypeEnv) (system : TypeSystem)
    (m : GroupInfoMap) : gkeys (fixAverages env system m) = gkeys m := by
  by_cases hs : system = TypeSystem.Nominal
  · subst hs
    rw [fixAverages_nominal]
  · rw [fixAverages_eq_mapVal env hs]
    exact gkeys_mapVal (fun g i =>
      (⟨i.index, i.useCount.divNat (env.groupMembers g).length,
        i.preds, i.sortedPreds⟩ : GroupInfo)) m

theorem gkeys_sortPreds (m : GroupInfoMap) : gkeys (sortPreds m) = gkeys m := by
  rw [sortPreds_eq_mapVal]
  exact gkeys_mapVal (fun g i =>
    (⟨i.index, i.useCount, [], sortGroups m i.preds⟩ : GroupInfo)) m

theorem lookup_fixAverages (env : TypeEnv) (system : TypeSystem)
    (m : GroupInfoMap) (g : RecGroupId) :
    ∃ f : GroupInfo → GroupInfo,
      (fixAverages env system m).lookup g = (m.lookup g).map f ∧
      (∀ i, (f i).preds = i.preds) ∧ (∀ i, (f i).index = i.index) := by
  by_cases hs : system = TypeSystem.Nominal
  · subst hs
    rw [fixAverages_nominal]
    exact ⟨id, by simp, fun i => rfl, fun i => rfl⟩
  · rw [fixAverages_eq_mapVal env hs]
    exact ⟨fun i => (⟨i.index, i.useCount.divNat (env.groupMembers g).length,
        i.preds, i.sortedPreds⟩ : GroupInfo),
      lookup_mapVal (fun g i =>
        (⟨i.index, i.useCount.divNat (env.groupMembers g).length,
          i.preds, i.sortedPreds⟩ : GroupInfo)) m g,
      fun i => rfl, fun i => rfl⟩

theorem lookup_sortPreds (m : GroupInfoMap) (g : RecGroupId) :
    (sortPreds m).lookup g = (m.lookup g).map (fun i =>
      (⟨i.index, i.useCount, [], sortGroups m i.preds⟩ : GroupInfo)) := by
  rw [sortPreds_eq_mapVal]
  exact lookup_mapVal (fun g i =>
    (⟨i.index, i.useCount, [], sortGroups m i.preds⟩ : GroupInfo)) m g

/-- How a successful run of the optimized index assignment decomposes. -/
theorem getOptimized_destruct (env : TypeEnv) (system : TypeSystem)
    (m : Module) {idx : IndexedHeapTypes} {counts : Counts}
    (hc : getHeapTypeCounts env m = some counts)
    (hopt : getOptimizedIndexedHeapTypes env system m = some idx) :
    (system = TypeSystem.Equirecursive ∧
      idx.types = (counts.insertionSort (fun a b => b.2 ≤ a.2)).map (fun p => p.1) ∧
      idx.indices = setIndices idx.types) ∨
    (system ≠ TypeSystem.Equirecursive ∧ ∃ infos0 order,
      buildGroupInfos env system counts = some infos0 ∧
      topoSort (predsOfMap (sortPreds (fixAverages env system infos0)))
        ((sortPreds (fixAverages env system infos0)).length + 1)
        ((sortGroups (sortPreds (fixAverages env system infos0))
          ((sortPreds (fixAverages env system infos0)).map (fun q => q.1))).reverse)
        = some order ∧
      idx.types = order.flatMap env.groupMembers ∧
      idx.indices = setIndices idx.types) := by
  unfold getOptimizedIndexedHeapTypes at hopt
  rw [hc] at hopt
  cases system with
  | Equirecursive =>
    dsimp only at hopt
    obtain rfl := (Option.some.inj hopt).symm
    exact Or.inl ⟨rfl, rfl, rfl⟩
  | Isorecursive =>
    refine Or.inr ⟨by simp, ?_⟩
    dsimp only at hopt
    cases hbg : buildGroupInfos env TypeSystem.Isorecursive counts with
    | none =>
      rw [hbg] at hopt
      cases hopt
    | some infos0 =>
      rw [hbg] at hopt
      dsimp only at hopt
      cases hts : topoSort (predsOfMap (sortPreds (fixAverages env TypeSystem.Isorecursive infos0)))
          ((sortPreds (fixAverages env TypeSystem.Isorecursive infos0)).length + 1)
          ((sortGroups (sortPreds (fixAverages env TypeSystem.Isorecursive infos0))
            ((sortPreds (fixAverages env TypeSystem.Isorecursive infos0)).map (fun q => q.1))).reverse) with
      | none =>
        rw [hts] at hopt
        cases hopt
      | some order =>
        rw [hts] at hopt
        obtain rfl := (Option.some.inj hopt).symm
        exact ⟨infos0, order, rfl, hts, rfl, rfl⟩
  | Nominal =>
    refine Or.inr ⟨by simp, ?_⟩
    dsimp only at hopt
    cases hbg : buildGroupInfos env TypeSystem.Nominal counts with
    | none =>
      rw [hbg] at hopt
      cases hopt
    | some infos0 =>
      rw [hbg] at hopt
      dsimp only at hopt
      cases hts : topoSort (predsOfMap (sortPreds (fixAverages env TypeSystem.Nominal infos0)))
          ((sortPreds (fixAverages env TypeSystem.Nominal infos0)).length + 1)
          ((sortGroups (sortPreds (fixAverages env TypeSystem.Nominal infos0))
            ((sortPreds (fixAverages env TypeSystem.Nominal infos0)).map (fun q => q.1))).reverse) with
      | none =>
        rw [hts] at hopt
        cases hopt
      | some order =>
        rw [hts] at hopt
        obtain rfl := (Option.some.inj hopt).symm
        exact ⟨infos0, order, rfl, hts, rfl, rfl⟩

theorem sortGroups_perm (m : GroupInfoMap) (gs : List RecGroupId) :
    (sortGroups m gs).Perm gs :=
  List.perm_insertionSort _ _

theorem mem_keysOf_iff {c : Counts} {t : HeapType} :
    t ∈ keysOf c ↔ ∃ p ∈ c, p.1 = t := by
  simp [keysOf]

/-- Every predecessor handed to the topological sort is the group of some
counted type: the predecessor lists stay inside the built key set. -/
theorem predsOfMap_closed (env : TypeEnv) (system : TypeSystem)
    {counts : Counts} {infos0 : GroupInfoMap}
    (hwf : env.WF) (hgood : GoodCounts env counts)
    (hbnd : ∀ x ∈ keysOf counts, x < env.numTypes)
    (hsat : ∀ t ∈ keysOf counts,
      (∀ ch ∈ env.children t, env.isBasic ch = false → ch ∈ keysOf counts) ∧
      (∀ s, env.superOf t = some s → s ∈ keysOf counts) ∧
      (∀ mm ∈ env.groupMembers (env.groupOf t), mm ∈ keysOf counts))
    (hbg : buildGroupInfos env system counts = some infos0) :
    ∀ g, ∀ p ∈ predsOfMap (sortPreds (fixAverages env system infos0)) g,
      p ∈ gkeys infos0 := by
  intro g p hp
  unfold predsOfMap at hp
  rw [List.mem_reverse] at hp
  unfold infoOf at hp
  rw [lookup_sortPreds] at hp
  obtain ⟨f, hf, hfp, _⟩ := lookup_fixAverages env system infos0 g
  rw [hf] at hp
  cases hl : infos0.lookup g with
  | none =>
    rw [hl] at hp
    simp at hp
  | some i0 =>
    rw [hl] at hp
    simp only [Option.map_some', Option.getD_some] at hp
    have hp' : p ∈ (f i0).preds := (sortGroups_perm _ _).mem_iff.mp hp
    rw [hfp i0] at hp'
    obtain ⟨q, hq, hgq, hcontrib⟩ :=
      buildGroupInfos_preds_src env system hbg g i0 hl p hp'
    have hqk : q.1 ∈ keysOf counts := mem_keysOf hq
    have hqnb : env.isBasic q.1 = false := hgood.2 q.1 hqk
    have hqlt : q.1 < env.numTypes := hbnd q.1 hqk
    obtain ⟨_, _, _, _, _, wrefd⟩ := hwf q.1 hqlt hqnb
    have hpk : ∃ x ∈ keysOf counts, env.groupOf x = p := by
      cases system with
      | Equirecursive => cases hcontrib
      | Isorecursive =>
        obtain ⟨r, hr, hrb, hgr, _⟩ := hcontrib
        rcases wrefd r hr hrb with hrc | hrs
        · exact ⟨r, ((hsat q.1 hqk).1 r hrc hrb), hgr⟩
        · exact ⟨r, ((hsat q.1 hqk).2.1 r hrs), hgr⟩
      | Nominal =>
        obtain ⟨sN, hsN, hgs⟩ := hcontrib
        exact ⟨sN, (hsat q.1 hqk).2.1 sN hsN, hgs⟩
    obtain ⟨x, hxk, hgx⟩ := hpk
    obtain ⟨qx, hqx, hqx1⟩ := mem_keysOf_iff.mp hxk
    have := (buildGroupInfos_keys env system hbg).2 qx hqx
    rw [hqx1, hgx] at this
    exact this

/-- Flattening pairwise-disjoint groups with locally unique members keeps
the list duplicate-free. -/
theorem flatMap_members_nodup (env : TypeEnv) :
    ∀ (order : List RecGroupId), order.Nodup →
    (∀ g ∈ order, ∀ x ∈ env.groupMembers g, env.groupOf x = g) →
    (∀ g ∈ order, (env.groupMembers g).Nodup) →
    (order.flatMap env.groupMembers).Nodup := by
  intro order
  induction order with
  | nil => simp
  | cons g l ih =>
    intro hnd hgrp hnodup
    rw [List.flatMap_cons]
    refine List.Nodup.append (hnodup g (by simp)) ?_ ?_
    · exact ih (List.nodup_cons.mp hnd).2
        (fun g0 hg0 => hgrp g0 (by simp [hg0]))
        (fun g0 hg0 => hnodup g0 (by simp [hg0]))
    · intro x hx hx'
      obtain ⟨g0, hg0, hxg0⟩ := List.mem_flatMap.mp hx'
      have h1 : env.groupOf x = g := hgrp g (by simp) x hx
      have h2 : env.groupOf x = g0 := hgrp g0 (by simp [hg0]) x hxg0
      exact (List.nodup_cons.mp hnd).1 (h1 ▸ h2 ▸ hg0)

/-- The combined specification of the recursion-group path: the flattened
member sequence is duplicate-free, is a permutation of the saturated key
set, respects the predecessor lists, and emits exactly the built groups. -/
theorem topoTypes_spec (env : TypeEnv) (system : TypeSystem) (counts : Counts)
    (infos0 : GroupInfoMap) (order : List RecGroupId)
    (hwf : env.WF) (hgood : GoodCounts env counts)
    (hbnd : ∀ x ∈ keysOf counts, x < env.numTypes)
    (hsat : ∀ t ∈ keysOf counts,
      (∀ ch ∈ env.children t, env.isBasic ch = false → ch ∈ keysOf counts) ∧
      (∀ s, env.superOf t = some s → s ∈ keysOf counts) ∧
      (∀ mm ∈ env.groupMembers (env.groupOf t), mm ∈ keysOf counts))
    (hbg : buildGroupInfos env system counts = some infos0)
    (horder : topoSort (predsOfMap (sortPreds (fixAverages env system infos0)))
        ((sortPreds (fixAverages env system infos0)).length + 1)
        ((sortGroups (sortPreds (fixAverages env system infos0))
          ((sortPreds (fixAverages env system infos0)).map (fun q => q.1))).reverse)
        = some order) :
    (order.flatMap env.groupMembers).Nodup ∧
    (order.flatMap env.groupMembers).Perm (keysOf counts) ∧
    TopoGood (predsOfMap (sortPreds (fixAverages env system infos0))) order ∧
    (∀ g ∈ gkeys infos0, g ∈ order) ∧ (∀ g ∈ order, g ∈ gkeys infos0) := by
  have hclosed := predsOfMap_closed env system hwf hgood hbnd hsat hbg
  have hkeys0 : gkeys (sortPreds (fixAverages env system infos0)) = gkeys infos0 := by
    rw [gkeys_sortPreds, gkeys_fixAverages]
  have hseeds : ∀ s, s ∈ (sortGroups (sortPreds (fixAverages env system infos0))
      ((sortPreds (fixAverages env system infos0)).map (fun q => q.1))).reverse ↔
      s ∈ gkeys infos0 := by
    intro s
    rw [List.mem_reverse, (sortGroups_perm _ _).mem_iff]
    show s ∈ gkeys (sortPreds (fixAverages env system infos0)) ↔ _
    rw [hkeys0]
  obtain ⟨hsd, hnd, hgoodT, hsub⟩ := topoSort_spec
    (predsOfMap (sortPreds (fixAverages env system infos0))) (gkeys infos0)
    (fun g _ p hp => hclosed g p hp) _ _ _ horder
  have horderK : ∀ g ∈ order, g ∈ gkeys infos0 :=
    hsub (fun s hs => (hseeds s).mp hs)
  have hKorder : ∀ g ∈ gkeys infos0, g ∈ order :=
    fun g hg => hsd g ((hseeds g).mpr hg)
  -- facts about the groups that appear
  have hgfact : ∀ g ∈ gkeys infos0,
      (∀ x ∈ env.groupMembers g, env.groupOf x = g ∧ x ∈ keysOf counts) ∧
      (env.groupMembers g).Nodup := by
    intro g hg
    obtain ⟨q, hq, hgq⟩ := (buildGroupInfos_keys env system hbg).1 g hg
    have hqk : q.1 ∈ keysOf counts := mem_keysOf hq
    have hqnb : env.isBasic q.1 = false := hgood.2 q.1 hqk
    have hqlt : q.1 < env.numTypes := hbnd q.1 hqk
    obtain ⟨_, _, wmem, _, wnodup, _⟩ := hwf q.1 hqlt hqnb
    subst hgq
    refine ⟨?_, wnodup⟩
    intro x hx
    exact ⟨(wmem x hx).2.2, (hsat q.1 hqk).2.2 x hx⟩
  have hndT : (order.flatMap env.groupMembers).Nodup := by
    refine flatMap_members_nodup env order hnd ?_ ?_
    · intro g hg x hx
      exact ((hgfact g (horderK g hg)).1 x hx).1
    · intro g hg
      exact (hgfact g (horderK g hg)).2
  refine ⟨hndT, ?_, hgoodT, hKorder, horderK⟩
  rw [List.perm_ext_iff_of_nodup hndT hgood.1]
  intro x
  constructor
  · intro hx
    obtain ⟨g, hg, hxg⟩ := List.mem_flatMap.mp hx
    exact ((hgfact g (horderK g hg)).1 x hxg).2
  · intro hx
    obtain ⟨qx, hqx, hqx1⟩ := mem_keysOf_iff.mp hx
    have hgk : env.groupOf x ∈ gkeys infos0 := by
      have := (buildGroupInfos_keys env system hbg).2 qx hqx
      rw [hqx1] at this
      exact this
    have hxnb : env.isBasic x = false := hgood.2 x hx
    have hxlt : x < env.numTypes := hbnd x hx
    obtain ⟨_, _, _, wself, _, _⟩ := hwf x hxlt hxnb
    exact List.mem_flatMap.mpr ⟨env.groupOf x, hKorder _ hgk, wself⟩

/-! The index map written by setIndices. -/

theorem mem_of_lookup_eq_some {β : Type} {c : List (Nat × β)} {t : Nat}
    {k : β} (h : c.lookup t = some k) : (t, k) ∈ c := by
  induction c with
  | nil => cases h
  | cons p c ih =>
    by_cases hpt : t = p.1
    · subst hpt
      rw [lookupG_cons_self] at h
      obtain rfl := Option.some.inj h
      simp
    · rw [lookupG_cons_ne hpt] at h
      exact List.mem_cons_of_mem p (ih h)

theorem foldl_assocSet_fresh :
    ∀ (l : List (Nat × HeapType)) (acc : List (HeapType × Nat)),
      (l.map (fun p => p.2)).Nodup →
      (∀ p ∈ l, acc.lookup p.2 = Option.none) →
      l.foldl (fun m p => assocSet m p.2 p.1) acc =
        acc ++ l.map (fun p => (p.2, p.1)) := by
  intro l
  induction l with
  | nil =>
    intro acc _ _
    simp
  | cons q l ih =>
    intro acc hnd hfresh
    have hnd2 : (q.2 :: l.map (fun p => p.2)).Nodup := by
      rw [← List.map_cons]
      exact hnd
    obtain ⟨hq2, hlnd⟩ := List.nodup_cons.mp hnd2
    simp only [List.foldl_cons]
    have hset : assocSet acc q.2 q.1 = acc ++ [(q.2, q.1)] := by
      unfold assocSet
      rw [if_neg (by simp [hfresh q (by simp)])]
    rw [hset]
    rw [ih (acc ++ [(q.2, q.1)]) hlnd ?fresh]
    · simp
    case fresh =>
      intro p hp
      rw [lookup_append, lookup_eq_none_of_not_contains
        (by simp [containsKey, hfresh p (by simp [hp])])]
      have hne : p.2 ≠ q.2 := by
        intro he
        exact hq2 (he ▸ List.mem_map_of_mem (fun p => p.2) hp)
      exact lookupG_cons_ne hne

theorem setIndices_eq (types : List HeapType) (hnd : types.Nodup) :
    setIndices types = types.enum.map (fun p => (p.2, p.1)) := by
  unfold setIndices
  rw [foldl_assocSet_fresh types.enum [] ?nodup (by simp [List.lookup])]
  · simp
  case nodup =>
    have : types.enum.map (fun p => p.2) = types := List.enum_map_snd types
    rw [this]
    exact hnd

theorem keysOf_setIndices (types : List HeapType) (hnd : types.Nodup) :
    (setIndices types).map (fun p => p.1) = types := by
  rw [setIndices_eq types hnd, List.map_map]
  exact List.enum_map_snd types

theorem lookup_setIndices_of_getElem {types : List HeapType}
    (hnd : types.Nodup) {i : Nat} {t : HeapType} (hi : types[i]? = some t) :
    (setIndices types).lookup t = some i := by
  rw [setIndices_eq types hnd]
  have hkeysnd : ((types.enum.map (fun p => (p.2, p.1))).map
      (fun p => p.1)).Nodup := by
    rw [List.map_map]
    have : types.enum.map ((fun p : HeapType × Nat => p.1) ∘
        (fun p : Nat × HeapType => (p.2, p.1))) = types := List.enum_map_snd types
    rw [this]
    exact hnd
  have hmem : ((t, i) : HeapType × Nat) ∈ types.enum.map (fun p => (p.2, p.1)) :=
    List.mem_map.mpr ⟨(i, t), List.mem_enum_iff_getElem?.mpr hi, rfl⟩
  exact lookup_of_mem_nodup hkeysnd hmem

theorem lookup_setIndices_mem {types : List HeapType} (hnd : types.Nodup)
    {t : HeapType} {k : Nat} (h : (setIndices types).lookup t = some k) :
    types[k]? = some t := by
  rw [setIndices_eq types hnd] at h
  obtain ⟨⟨i, u⟩, hmem, heq⟩ := List.mem_map.mp (mem_of_lookup_eq_some h)
  obtain ⟨rfl, rfl⟩ : u = t ∧ i = k := by
    constructor <;> [exact congrArg Prod.fst heq; exact congrArg Prod.snd heq]
  exact List.mem_enum_iff_getElem?.mp hmem

/-- Types in an earlier block of the sequence receive smaller indices. -/
theorem setIndices_split_lt {types : List HeapType} (hnd : types.Nodup)
    {A B : List HeapType} (hAB : types = A ++ B) {a b : HeapType}
    (ha : a ∈ A) (hb : b ∈ B) :
    ∃ ia ib, (setIndices types).lookup a = some ia ∧
      (setIndices types).lookup b = some ib ∧ ia < ib := by
  obtain ⟨na, hna⟩ := List.mem_iff_getElem?.mp ha
  obtain ⟨nb, hnb⟩ := List.mem_iff_getElem?.mp hb
  have hnalt : na < A.length := by
    obtain ⟨h, _⟩ := List.getElem?_eq_some.mp hna
    exact h
  have hnblt : nb < B.length := by
    obtain ⟨h, _⟩ := List.getElem?_eq_some.mp hnb
    exact h
  have hga : types[na]? = some a := by
    rw [hAB, List.getElem?_append, if_pos hnalt]
    exact hna
  have hgb : types[A.length + nb]? = some b := by
    rw [hAB, List.getElem?_append_right (by omega)]
    have : A.length + nb - A.length = nb := by omega
    rw [this]
    exact hnb
  exact ⟨na, A.length + nb, lookup_setIndices_of_getElem hnd hga,
    lookup_setIndices_of_getElem hnd hgb, by omega⟩

/-- The permutation and uniqueness facts of the optimized output. -/
theorem getOptimized_types_perm (env : TypeEnv) (system : TypeSystem)
    (m : Module) {counts : Counts} {idx : IndexedHeapTypes}
    (hwf : env.WF)
    (hbound : ∀ x ∈ keysOf (scanModule env m), x < env.numTypes)
    (hc : getHeapTypeCounts env m = some counts)
    (hopt : getOptimizedIndexedHeapTypes env system m = some idx) :
    idx.types.Perm (keysOf counts) ∧ idx.types.Nodup := by
  have hgood := getHeapTypeCounts_goodCounts env m hc
  rcases getOptimized_destruct env system m hc hopt with
    ⟨_, htypes, _⟩ | ⟨hne, infos0, order, hbg, hts, htypes, _⟩
  · rw [htypes]
    have hperm : ((counts.insertionSort (fun a b => b.2 ≤ a.2)).map
        (fun p => p.1)).Perm (keysOf counts) :=
      (List.perm_insertionSort _ _).map _
    exact ⟨hperm, hperm.nodup_iff.mpr hgood.1⟩
  · have hbnd := getHeapTypeCounts_bounded env hwf m hbound hc
    have hsat := getHeapTypeCounts_saturated env hwf m hbound hc
    obtain ⟨hnd, hperm, _, _, _⟩ := topoTypes_spec env system counts infos0
      order hwf hgood hbnd hsat hbg hts
    rw [htypes]
    exact ⟨hperm, hnd⟩

/-! Well-formedness of the concrete arenas. -/

theorem envA_wf : envA.WF := by
  intro t ht _
  have ht4 : t < 4 := ht
  interval_cases t
  · refine ⟨by decide, ?_, by decide, by decide, by decide, by decide⟩
    intro s hs
    simp only [envA, if_true, Option.some.injEq] at hs
    subst hs
    exact ⟨by decide, rfl⟩
  all_goals
    exact ⟨by decide, fun s hs => by simp [envA] at hs,
      by decide, by decide, by decide, by decide⟩

theorem envB_wf : envB.WF := by
  intro t ht _
  have ht3 : t < 3 := ht
  interval_cases t <;>
    exact ⟨by decide, fun s hs => by simp [envB] at hs,
      by decide, by decide, by decide, by decide⟩

/-- A successful optimized run implies a successful saturation. -/
theorem getOptimized_hasCounts (env : TypeEnv) (system : TypeSystem)
    (m : Module) {idx : IndexedHeapTypes}
    (hopt : getOptimizedIndexedHeapTypes env system m = some idx) :
    ∃ counts, getHeapTypeCounts env m = some counts := by
  unfold getOptimizedIndexedHeapTypes at hopt
  cases hc : getHeapTypeCounts env m with
  | none =>
    rw [hc] at hopt
    cases hopt
  | some counts => exact ⟨counts, rfl⟩

/-- C1: on a well-formed arena, both entry points return each distinct
non-basic heap type of the module at most once (no duplicates), every type
the scanner recorded does appear, and no basic heap type ever appears in
either output. -/
theorem claim_C1 (env : TypeEnv) (system : TypeSystem) (m : Module)
    (ts : List HeapType) (idx : IndexedHeapTypes) (hwf : env.WF)
    (hbound : ∀ x ∈ keysOf (scanModule env m), x < env.numTypes)
    (hcoll : collectHeapTypes env m = some ts)
    (hopt : getOptimizedIndexedHeapTypes env system m = some idx) :
    ts.Nodup ∧ (∀ t ∈ ts, env.isBasic t = false) ∧
    (∀ t ∈ keysOf (scanModule env m), t ∈ ts) ∧
    idx.types.Nodup ∧ (∀ t ∈ idx.types, env.isBasic t = false) ∧
    ∀ t ∈ keysOf (scanModule env m), t ∈ idx.types := by
  unfold collectHeapTypes at hcoll
  cases hc : getHeapTypeCounts env m with
  | none =>
    rw [hc] at hcoll
    cases hcoll
  | some counts =>
    rw [hc] at hcoll
    obtain rfl : keysOf counts = ts := Option.some.inj hcoll
    have hgood := getHeapTypeCounts_goodCounts env m hc
    have hgrow := getHeapTypeCounts_grows env m hc
    obtain ⟨hperm, hnd⟩ := getOptimized_types_perm env system m hwf hbound hc hopt
    exact ⟨hgood.1, hgood.2, fun t ht => mem_of_growsFrom hgrow ht, hnd,
      fun t ht => hgood.2 t (hperm.mem_iff.mp ht),
      fun t ht => hperm.mem_iff.mpr (mem_of_growsFrom hgrow ht)⟩

theorem claim_C1_witness :
    ([0, 2, 1] : List HeapType).Nodup ∧
    (∀ t ∈ ([0, 2, 1] : List HeapType), envB.isBasic t = false) ∧
    (∀ t ∈ keysOf (scanModule envB modB), t ∈ ([0, 2, 1] : List HeapType)) ∧
    ([2, 0, 1] : List HeapType).Nodup ∧
    (∀ t ∈ ([2, 0, 1] : List HeapType), envB.isBasic t = false) ∧
    ∀ t ∈ keysOf (scanModule envB modB), t ∈ ([2, 0, 1] : List HeapType) :=
  claim_C1 envB TypeSystem.Isorecursive modB [0, 2, 1]
    ⟨[2, 0, 1], [(2, 0), (0, 1), (1, 2)]⟩ envB_wf (by decide) (by decide)
    (by decide)

/-- C2: on a well-formed arena, when heap type A is counted, every
non-basic structural child of A, every member of A's recursion group, and
A's supertype are all present both in the saturated universe returned by
collectHeapTypes and in the optimized output sequence. -/
theorem claim_C2 (env : TypeEnv) (system : TypeSystem) (m : Module)
    (counts : Counts) (idx : IndexedHeapTypes) (A : HeapType) (hwf : env.WF)
    (hbound : ∀ x ∈ keysOf (scanModule env m), x < env.numTypes)
    (hc : getHeapTypeCounts env m = some counts)
    (hopt : getOptimizedIndexedHeapTypes env system m = some idx)
    (hA : A ∈ keysOf counts) :
    collectHeapTypes env m = some (keysOf counts) ∧
    (∀ ch ∈ env.children A, env.isBasic ch = false →
      ch ∈ keysOf counts ∧ ch ∈ idx.types) ∧
    (∀ mm ∈ env.groupMembers (env.groupOf A),
      mm ∈ keysOf counts ∧ mm ∈ idx.types) ∧
    (∀ s, env.superOf A = some s → s ∈ keysOf counts ∧ s ∈ idx.types) := by
  have hsat := getHeapTypeCounts_saturated env hwf m hbound hc A hA
  obtain ⟨hperm, _⟩ := getOptimized_types_perm env system m hwf hbound hc hopt
  refine ⟨by rw [collectHeapTypes, hc]; rfl, ?_, ?_, ?_⟩
  · intro ch hch hb
    have := hsat.1 ch hch hb
    exact ⟨this, hperm.mem_iff.mpr this⟩
  · intro mm hmm
    have := hsat.2.2 mm hmm
    exact ⟨this, hperm.mem_iff.mpr this⟩
  · intro s hs
    have := hsat.2.1 s hs
    exact ⟨this, hperm.mem_iff.mpr this⟩

theorem claim_C2_witness :
    (collectHeapTypes envB modB = some (keysOf [(0, 5), (2, 2), (1, 0)]) ∧
    (∀ ch ∈ envB.children 0, envB.isBasic ch = false →
      ch ∈ keysOf [(0, 5), (2, 2), (1, 0)] ∧ ch ∈ ([2, 0, 1] : List HeapType)) ∧
    (∀ mm ∈ envB.groupMembers (envB.groupOf 0),
      mm ∈ keysOf [(0, 5), (2, 2), (1, 0)] ∧ mm ∈ ([2, 0, 1] : List HeapType)) ∧
    (∀ s, envB.superOf 0 = some s →
      s ∈ keysOf [(0, 5), (2, 2), (1, 0)] ∧ s ∈ ([2, 0, 1] : List HeapType))) :=
  claim_C2 envB TypeSystem.Isorecursive modB [(0, 5), (2, 2), (1, 0)]
    ⟨[2, 0, 1], [(2, 0), (0, 1), (1, 2)]⟩ 0 envB_wf (by decide) (by decide)
    (by decide) (by decide)

/-- C3: on a well-formed arena, the index map of every optimized output is
a bijection between the returned types and the contiguous range below the
sequence length: the type at position i maps to i, every mapped index
points back at its type, the map is injective, and every position below
the length is hit. -/
theorem claim_C3 (env : TypeEnv) (system : TypeSystem) (m : Module)
    (idx : IndexedHeapTypes) (hwf : env.WF)
    (hbound : ∀ x ∈ keysOf (scanModule env m), x < env.numTypes)
    (hopt : getOptimizedIndexedHeapTypes env system m = some idx) :
    (∀ i t, idx.types[i]? = some t → idx.indices.lookup t = some i) ∧
    (∀ t k, idx.indices.lookup t = some k →
      k < idx.types.length ∧ idx.types[k]? = some t) ∧
    (∀ t u k, idx.indices.lookup t = some k →
      idx.indices.lookup u = some k → t = u) ∧
    (∀ k, k < idx.types.length → ∃ t, idx.indices.lookup t = some k) := by
  obtain ⟨counts, hc⟩ := getOptimized_hasCounts env system m hopt
  obtain ⟨_, hnd⟩ := getOptimized_types_perm env system m hwf hbound hc hopt
  have hind : idx.indices = setIndices idx.types := by
    rcases getOptimized_destruct env system m hc hopt with
      ⟨_, htypes, hindices⟩ | ⟨_, _, _, _, _, htypes, hindices⟩
    · rw [hindices, htypes]
    · rw [hindices, htypes]
  rw [hind]
  refine ⟨?_, ?_, ?_, ?_⟩
  · intro i t hit
    exact lookup_setIndices_of_getElem hnd hit
  · intro t k hk
    have := lookup_setIndices_mem hnd hk
    obtain ⟨hlt, _⟩ := List.getElem?_eq_some.mp this
    exact ⟨hlt, this⟩
  · intro t u k ht hu
    have h1 := lookup_setIndices_mem hnd ht
    have h2 := lookup_setIndices_mem hnd hu
    rw [h1] at h2
    exact Option.some.inj h2
  · intro k hk
    exact ⟨idx.types[k],
      lookup_setIndices_of_getElem hnd (List.getElem?_eq_getElem hk)⟩

theorem claim_C3_witness :
    (∀ i t, (⟨[2, 0, 1], [(2, 0), (0, 1), (1, 2)]⟩ : IndexedHeapTypes).types[i]?
        = some t →
      (⟨[2, 0, 1], [(2, 0), (0, 1), (1, 2)]⟩ : IndexedHeapTypes).indices.lookup t
        = some i) ∧
    (∀ t k, (⟨[2, 0, 1], [(2, 0), (0, 1), (1, 2)]⟩ : IndexedHeapTypes).indices.lookup t
        = some k →
      k < (⟨[2, 0, 1], [(2, 0), (0, 1), (1, 2)]⟩ : IndexedHeapTypes).types.length ∧
      (⟨[2, 0, 1], [(2, 0), (0, 1), (1, 2)]⟩ : IndexedHeapTypes).types[k]? = some t) ∧
    (∀ t u k, (⟨[2, 0, 1], [(2, 0), (0, 1), (1, 2)]⟩ : IndexedHeapTypes).indices.lookup t
        = some k →
      (⟨[2, 0, 1], [(2, 0), (0, 1), (1, 2)]⟩ : IndexedHeapTypes).indices.lookup u
        = some k → t = u) ∧
    (∀ k, k < (⟨[2, 0, 1], [(2, 0), (0, 1), (1, 2)]⟩ : IndexedHeapTypes).types.length →
      ∃ t, (⟨[2, 0, 1], [(2, 0), (0, 1), (1, 2)]⟩ : IndexedHeapTypes).indices.lookup t
        = some k) :=
  claim_C3 envB TypeSystem.Isorecursive modB
    ⟨[2, 0, 1], [(2, 0), (0, 1), (1, 2)]⟩ envB_wf (by decide) (by decide)

/-- C10: on a well-formed arena, for any fixed type system the optimized
type sequence is a permutation of the sequence collectHeapTypes returns:
same types, same multiplicities, only the order differs. -/
theorem claim_C10 (env : TypeEnv) (system : TypeSystem) (m : Module)
    (ts : List HeapType) (idx : IndexedHeapTypes) (hwf : env.WF)
    (hbound : ∀ x ∈ keysOf (scanModule env m), x < env.numTypes)
    (hcoll : collectHeapTypes env m = some ts)
    (hopt : getOptimizedIndexedHeapTypes env system m = some idx) :
    idx.types.Perm ts := by
  unfold collectHeapTypes at hcoll
  cases hc : getHeapTypeCounts env m with
  | none =>
    rw [hc] at hcoll
    cases hcoll
  | some counts =>
    rw [hc] at hcoll
    obtain rfl : keysOf counts = ts := Option.some.inj hcoll
    exact (getOptimized_types_perm env system m hwf hbound hc hopt).1

theorem claim_C10_witness :
    (⟨[2, 0, 1], [(2, 0), (0, 1), (1, 2)]⟩ : IndexedHeapTypes).types.Perm
      [0, 2, 1] :=
  claim_C10 envB TypeSystem.Isorecursive modB [0, 2, 1]
    ⟨[2, 0, 1], [(2, 0), (0, 1), (1, 2)]⟩ envB_wf (by decide) (by decide)
    (by decide)

/-- spec-modelled: C4: on a well-formed arena, under a grouping type system
(isorecursive or nominal), whenever recursion group g2 is a predecessor of
the group of a counted type t1 (isorecursive: t1 references a non-basic
heap type of the distinct group g2; nominal: g2 is the group of t1's
supertype), every member of g2 receives a strictly smaller index than
every member of t1's group in the optimized output. -/
theorem claim_C4 (env : TypeEnv) (system : TypeSystem) (m : Module)
    (counts : Counts) (idx : IndexedHeapTypes)
    (hwf : env.WF)
    (hbound : ∀ x ∈ keysOf (scanModule env m), x < env.numTypes)
    (hsys : system ≠ TypeSystem.Equirecursive)
    (hc : getHeapTypeCounts env m = some counts)
    (hopt : getOptimizedIndexedHeapTypes env system m = some idx)
    (t1 : HeapType) (g2 : RecGroupId)
    (ht1 : t1 ∈ keysOf counts)
    (hpred : PredContrib env system t1 (env.groupOf t1) g2)
    (a b : HeapType)
    (ha : a ∈ env.groupMembers g2)
    (hb : b ∈ env.groupMembers (env.groupOf t1)) :
    ∃ ia ib, idx.indices.lookup a = some ia ∧
      idx.indices.lookup b = some ib ∧ ia < ib := by
  have hgood := getHeapTypeCounts_goodCounts env m hc
  have hbnd := getHeapTypeCounts_bounded env hwf m hbound hc
  have hsat := getHeapTypeCounts_saturated env hwf m hbound hc
  rcases getOptimized_destruct env system m hc hopt with
    ⟨heq, _, _⟩ | ⟨_, infos0, order, hbg, hts, htypes, hind⟩
  · exact absurd heq hsys
  · obtain ⟨hnd, _, hTG, hKo, _⟩ := topoTypes_spec env system counts infos0
      order hwf hgood hbnd hsat hbg hts
    obtain ⟨q, hq, hq1⟩ := mem_keysOf_iff.mp ht1
    have hpc : PredContrib env system q.1 (env.groupOf q.1) g2 := by
      rw [hq1]
      exact hpred
    obtain ⟨i, hlook, hg2i⟩ :=
      buildGroupInfos_preds_complete env system hbg q hq g2 hpc
    rw [hq1] at hlook
    have hg1k : env.groupOf t1 ∈ gkeys infos0 := by
      have := (buildGroupInfos_keys env system hbg).2 q hq
      rw [hq1] at this
      exact this
    have hg1o : env.groupOf t1 ∈ order := hKo _ hg1k
    have hg2p : g2 ∈ predsOfMap (sortPreds (fixAverages env system infos0))
        (env.groupOf t1) := by
      unfold predsOfMap
      rw [List.mem_reverse]
      unfold infoOf
      rw [lookup_sortPreds]
      obtain ⟨f, hf, hfp, _⟩ :=
        lookup_fixAverages env system infos0 (env.groupOf t1)
      rw [hf, hlook]
      simp only [Option.map_some', Option.getD_some]
      refine (sortGroups_perm _ _).mem_iff.mpr ?_
      rw [hfp i]
      exact hg2i
    obtain ⟨l1, l2, hsplit, hg2l1⟩ := hTG (env.groupOf t1) hg1o g2 hg2p
    have htypes2 : idx.types = l1.flatMap env.groupMembers ++
        ((env.groupOf t1 :: l2).flatMap env.groupMembers) := by
      rw [htypes, hsplit, List.flatMap_append]
    have haA : a ∈ l1.flatMap env.groupMembers :=
      List.mem_flatMap.mpr ⟨g2, hg2l1, ha⟩
    have hbB : b ∈ (env.groupOf t1 :: l2).flatMap env.groupMembers := by
      rw [List.flatMap_cons]
      exact List.mem_append.mpr (Or.inl hb)
    have hndT : idx.types.Nodup := by
      rw [htypes]
      exact hnd
    obtain ⟨ia, ib, hia, hib, hlt⟩ :=
      setIndices_split_lt hndT htypes2 haA hbB
    rw [hind]
    exact ⟨ia, ib, hia, hib, hlt⟩

theorem claim_C4_witness :
    ∃ ia ib,
      (⟨[2, 0, 1], [(2, 0), (0, 1), (1, 2)]⟩ : IndexedHeapTypes).indices.lookup 2
        = some ia ∧
      (⟨[2, 0, 1], [(2, 0), (0, 1), (1, 2)]⟩ : IndexedHeapTypes).indices.lookup 0
        = some ib ∧ ia < ib :=
  claim_C4 envB TypeSystem.Isorecursive modB [(0, 5), (2, 2), (1, 0)]
    ⟨[2, 0, 1], [(2, 0), (0, 1), (1, 2)]⟩ envB_wf (by decide) (by decide)
    (by decide) (by decide) 0 11 (by decide)
    ⟨2, by decide, by decide, by decide, by decide⟩ 2 0 (by decide) (by decide)

/-! Value order of the use-count fractions: cross-multiplication facts. -/

theorem cross_lt_trans {an ad bn bd cn cd : Nat}
    (h1 : an * bd < bn * ad) (h2 : bn * cd < cn * bd) :
    an * cd < cn * ad := by
  have had : 0 < ad := by
    rcases Nat.eq_zero_or_pos ad with h | h
    · rw [h, Nat.mul_zero] at h1
      exact absurd h1 (Nat.not_lt_zero _)
    · exact h
  rcases Nat.eq_zero_or_pos cd with hcd | hcd
  · have hcn : 0 < cn := by
      rcases Nat.eq_zero_or_pos cn with h | h
      · rw [h, Nat.zero_mul] at h2
        exact absurd h2 (Nat.not_lt_zero _)
      · exact h
    rw [hcd, Nat.mul_zero]
    exact Nat.mul_pos hcn had
  · have k1 : an * bd * cd < bn * ad * cd := mul_lt_mul_of_pos_right h1 hcd
    have k2 : bn * cd * ad < cn * bd * ad := mul_lt_mul_of_pos_right h2 had
    have k3 : an * cd * bd < cn * ad * bd := by
      calc an * cd * bd = an * bd * cd := by ring
        _ < bn * ad * cd := k1
        _ = bn * cd * ad := by ring
        _ < cn * bd * ad := k2
        _ = cn * ad * bd := by ring
    exact lt_of_mul_lt_mul_right k3 (Nat.zero_le _)

theorem cross_lt_of_lt_eq {un ud vn vd wn wd : Nat} (hwd : 0 < wd)
    (hlt : vn * ud < un * vd) (heq : vn * wd = wn * vd) :
    wn * ud < un * wd := by
  have k : vn * ud * wd < un * vd * wd := mul_lt_mul_of_pos_right hlt hwd
  have k2 : wn * ud * vd < un * wd * vd := by
    calc wn * ud * vd = (wn * vd) * ud := by ring
      _ = (vn * wd) * ud := by rw [heq]
      _ = vn * ud * wd := by ring
      _ < un * vd * wd := k
      _ = un * wd * vd := by ring
  exact lt_of_mul_lt_mul_right k2 (Nat.zero_le _)

theorem cross_lt_of_eq_lt {un ud vn vd wn wd : Nat} (hud : 0 < ud)
    (heq : un * vd = vn * ud) (hlt : wn * vd < vn * wd) :
    wn * ud < un * wd := by
  have k : wn * vd * ud < vn * wd * ud := mul_lt_mul_of_pos_right hlt hud
  have k2 : wn * ud * vd < un * wd * vd := by
    calc wn * ud * vd = wn * vd * ud := by ring
      _ < vn * wd * ud := k
      _ = (vn * ud) * wd := by ring
      _ = (un * vd) * wd := by rw [heq]
      _ = un * wd * vd := by ring
  exact lt_of_mul_lt_mul_right k2 (Nat.zero_le _)

theorem cross_eq_trans {un ud vn vd wn wd : Nat} (hvd : 0 < vd)
    (h1 : un * vd = vn * ud) (h2 : vn * wd = wn * vd) :
    un * wd = wn * ud := by
  have k : un * wd * vd = wn * ud * vd := by
    calc un * wd * vd = (un * vd) * wd := by ring
      _ = (vn * ud) * wd := by rw [h1]
      _ = (vn * wd) * ud := by ring
      _ = (wn * vd) * ud := by rw [h2]
      _ = wn * ud * vd := by ring
  exact Nat.eq_of_mul_eq_mul_right hvd k

/-- Not being `GroupInfo`-less-than is exactly: strictly larger use count
by value, or a value tie with a no-later insertion index. -/
theorem infoLt_eq_false_iff (x y : GroupInfo) :
    infoLt x y = false ↔
      (Frac.vlt y.useCount x.useCount = true ∨
        (Frac.veq x.useCount y.useCount = true ∧ x.index ≤ y.index)) := by
  unfold infoLt
  split <;> rename_i h
  · simp only [Frac.veq, beq_iff_eq] at h
    simp [Frac.vlt, Frac.veq, h, Nat.not_lt]
  · simp only [Frac.veq, beq_iff_eq] at h
    simp only [Frac.vlt, Frac.veq, decide_eq_false_iff_not, decide_eq_true_eq,
      beq_iff_eq]
    constructor
    · intro hnlt
      exact Or.inl (Nat.lt_of_le_of_ne (Nat.not_lt.mp hnlt)
        (fun he => h he.symm))
    · intro hor
      rcases hor with hlt | ⟨heq, _⟩
      · exact Nat.not_lt.mpr (Nat.le_of_lt hlt)
      · exact absurd heq h

theorem infoLt_total (x y : GroupInfo) :
    infoLt x y = false ∨ infoLt y x = false := by
  rw [infoLt_eq_false_iff, infoLt_eq_false_iff]
  simp only [Frac.vlt, Frac.veq, decide_eq_true_eq, beq_iff_eq]
  rcases Nat.lt_trichotomy (x.useCount.num * y.useCount.den)
      (y.useCount.num * x.useCount.den) with h | h | h
  · exact Or.inr (Or.inl h)
  · rcases Nat.le_total x.index y.index with hi | hi
    · exact Or.inl (Or.inr ⟨h, hi⟩)
    · exact Or.inr (Or.inr ⟨h.symm, hi⟩)
  · exact Or.inl (Or.inl h)

theorem infoLt_false_trans {x y z : GroupInfo}
    (hx : 0 < x.useCount.den) (hy : 0 < y.useCount.den)
    (hz : 0 < z.useCount.den)
    (hxy : infoLt x y = false) (hyz : infoLt y z = false) :
    infoLt x z = false := by
  rw [infoLt_eq_false_iff] at hxy hyz ⊢
  simp only [Frac.vlt, Frac.veq, decide_eq_true_eq, beq_iff_eq] at hxy hyz ⊢
  rcases hxy with h1 | ⟨h1, hi1⟩ <;> rcases hyz with h2 | ⟨h2, hi2⟩
  · exact Or.inl (cross_lt_trans h2 h1)
  · exact Or.inl (cross_lt_of_lt_eq hz h1 h2)
  · exact Or.inl (cross_lt_of_eq_lt hx h1 h2)
  · exact Or.inr ⟨cross_eq_trans hy h1 h2, Nat.le_trans hi1 hi2⟩

theorem priorityGE_iff (m : GroupInfoMap) (a b : RecGroupId) :
    PriorityGE m a b ↔ infoLt (infoOf m a) (infoOf m b) = false :=
  (infoLt_eq_false_iff (infoOf m a) (infoOf m b)).symm

/-- An ascending `sortGroups` output read backwards is descending: every
earlier group has visitation priority over every later one. -/
theorem sortGroups_rev_pairwise (m : GroupInfoMap)
    (hm : ∀ g, 0 < (infoOf m g).useCount.den) (gs : List RecGroupId) :
    (sortGroups m gs).reverse.Pairwise (PriorityGE m) := by
  haveI hto : IsTotal RecGroupId
      (fun a b => infoLt (infoOf m b) (infoOf m a) = false) :=
    ⟨fun a b => infoLt_total (infoOf m b) (infoOf m a)⟩
  haveI htr : IsTrans RecGroupId
      (fun a b => infoLt (infoOf m b) (infoOf m a) = false) :=
    ⟨fun a b c hab hbc => infoLt_false_trans (hm c) (hm b) (hm a) hbc hab⟩
  have hs : (sortGroups m gs).Pairwise
      (fun a b => infoLt (infoOf m b) (infoOf m a) = false) :=
    List.sorted_insertionSort _ gs
  rw [List.pairwise_reverse]
  exact List.Pairwise.imp (fun h => (priorityGE_iff m _ _).mpr h) hs

theorem infoOf_sortPreds (m : GroupInfoMap) (g : RecGroupId) :
    (infoOf (sortPreds m) g).useCount = (infoOf m g).useCount ∧
    (infoOf (sortPreds m) g).index = (infoOf m g).index := by
  unfold infoOf
  rw [lookup_sortPreds]
  cases m.lookup g with
  | none => exact ⟨rfl, rfl⟩
  | some i => exact ⟨rfl, rfl⟩

theorem priorityGE_sortPreds (m : GroupInfoMap) (a b : RecGroupId) :
    PriorityGE (sortPreds m) a b ↔ PriorityGE m a b := by
  unfold PriorityGE
  rw [(infoOf_sortPreds m a).1, (infoOf_sortPreds m a).2,
    (infoOf_sortPreds m b).1, (infoOf_sortPreds m b).2]

/-! Denominators of the use-count fractions stay positive along the
pipeline, which makes the priority order total and transitive. -/

theorem mem_updateInfo {m : GroupInfoMap} {g : RecGroupId}
    {f : GroupInfo → GroupInfo} {q' : RecGroupId × GroupInfo}
    (h : q' ∈ updateInfo m g f) :
    ∃ q ∈ m, q' = q ∨ q' = (q.1, f q.2) := by
  unfold updateInfo at h
  obtain ⟨q, hq, hval⟩ := List.mem_map.mp h
  refine ⟨q, hq, ?_⟩
  by_cases hg : q.1 = g
  · rw [if_pos hg] at hval
    exact Or.inr hval.symm
  · rw [if_neg hg] at hval
    exact Or.inl hval.symm

theorem mem_groupInsert {m : GroupInfoMap} {g : RecGroupId}
    {q' : RecGroupId × GroupInfo} (h : q' ∈ groupInsert m g) :
    q' ∈ m ∨ q' = (g, ⟨m.length, ⟨0, 1⟩, [], []⟩) := by
  unfold groupInsert at h
  split at h
  · exact Or.inl h
  · rcases List.mem_append.mp h with h | h
    · exact Or.inl h
    · exact Or.inr (List.mem_singleton.mp h)

theorem buildGroupInfosStep_dens (env : TypeEnv) (system : TypeSystem)
    {m : GroupInfoMap} {p : HeapType × Nat} {m' : GroupInfoMap}
    (hm : ∀ q ∈ m, q.2.useCount.den = 1)
    (h : buildGroupInfosStep env system m p = some m') :
    ∀ q ∈ m', q.2.useCount.den = 1 := by
  obtain ⟨ps, _, rfl⟩ := buildGroupInfosStep_eq env system m p h
  intro q' hq'
  obtain ⟨q2, hq2, hv2⟩ := mem_updateInfo hq'
  obtain ⟨q1, hq1, hv1⟩ := mem_updateInfo hq2
  have hq1d : q1.2.useCount.den = 1 := by
    rcases mem_groupInsert hq1 with h1 | h1
    · exact hm q1 h1
    · rw [h1]
  have hq2d : q2.2.useCount.den = 1 := by
    rcases hv1 with rfl | rfl
    · exact hq1d
    · simpa [Frac.addNat] using hq1d
  rcases hv2 with rfl | rfl
  · exact hq2d
  · simpa using hq2d

theorem buildGroupInfos_dens (env : TypeEnv) (system : TypeSystem) :
    ∀ (l : Counts) (m0 infos : GroupInfoMap),
      (∀ q ∈ m0, q.2.useCount.den = 1) →
      l.foldlM (buildGroupInfosStep env system) m0 = some infos →
      ∀ q ∈ infos, q.2.useCount.den = 1 := by
  intro l
  induction l with
  | nil =>
    intro m0 infos hm h
    simp only [List.foldlM_nil] at h
    cases h
    exact hm
  | cons p l ih =>
    intro m0 infos hm h
    rw [List.foldlM_cons] at h
    cases hstep : buildGroupInfosStep env system m0 p with
    | none =>
      rw [hstep] at h
      cases h
    | some m1 =>
      rw [hstep] at h
      exact ih m1 infos (buildGroupInfosStep_dens env system hm hstep) h

theorem infoOf_den_pos (env : TypeEnv) (system : TypeSystem) (m : Module)
    {counts : Counts} {infos0 : GroupInfoMap}
    (hwf : env.WF)
    (hbound : ∀ x ∈ keysOf (scanModule env m), x < env.numTypes)
    (hc : getHeapTypeCounts env m = some counts)
    (hbg : buildGroupInfos env system counts = some infos0) (g : RecGroupId) :
    0 < (infoOf (fixAverages env system infos0) g).useCount.den := by
  have hgood := getHeapTypeCounts_goodCounts env m hc
  have hbnd := getHeapTypeCounts_bounded env hwf m hbound hc
  have hden0 : ∀ q ∈ infos0, q.2.useCount.den = 1 :=
    buildGroupInfos_dens env system counts [] infos0 (by simp) hbg
  by_cases hs : system = TypeSystem.Nominal
  · subst hs
    rw [fixAverages_nominal]
    unfold infoOf
    cases hl : infos0.lookup g with
    | none => decide
    | some i =>
      simp only [Option.getD_some]
      have hd : i.useCount.den = 1 := hden0 (g, i) (mem_of_lookup_eq_some hl)
      rw [hd]
      exact Nat.one_pos
  · rw [fixAverages_eq_mapVal env hs]
    unfold infoOf
    rw [lookup_mapVal (fun gg i =>
      (⟨i.index, i.useCount.divNat (env.groupMembers gg).length,
        i.preds, i.sortedPreds⟩ : GroupInfo)) infos0 g]
    cases hl : infos0.lookup g with
    | none => simp
    | some i =>
      simp only [Option.map_some', Option.getD_some]
      have hd : i.useCount.den = 1 := hden0 (g, i) (mem_of_lookup_eq_some hl)
      have hgk : g ∈ gkeys infos0 :=
        List.mem_map_of_mem (fun q => q.1) (mem_of_lookup_eq_some hl)
      obtain ⟨q, hq, hgq⟩ := (buildGroupInfos_keys env system hbg).1 g hgk
      have hqk : q.1 ∈ keysOf counts := mem_keysOf hq
      obtain ⟨_, _, _, wself, _, _⟩ := hwf q.1 (hbnd q.1 hqk) (hgood.2 q.1 hqk)
      have hlen : 0 < (env.groupMembers g).length := by
        rw [← hgq]
        exact List.length_pos.mpr (List.ne_nil_of_mem wself)
      show 0 < i.useCount.den * (env.groupMembers g).length
      rw [hd, Nat.one_mul]
      exact hlen

/-- The predecessor list handed to the topological visit is emitted in
descending visitation priority. -/
theorem predsOfMap_pairwise (m : GroupInfoMap)
    (hm : ∀ g, 0 < (infoOf m g).useCount.den) (g : RecGroupId) :
    (predsOfMap (sortPreds m) g).Pairwise (PriorityGE (sortPreds m)) := by
  unfold predsOfMap
  unfold infoOf
  rw [lookup_sortPreds]
  cases hl : m.lookup g with
  | none => simp
  | some i =>
    simp only [Option.map_some', Option.getD_some]
    have h := sortGroups_rev_pairwise m hm i.preds
    exact List.Pairwise.imp (fun hab => (priorityGE_sortPreds m _ _).mpr hab) h

/-- The seed list handed to the topological sort is emitted in descending
visitation priority. -/
theorem seeds_pairwise (m : GroupInfoMap)
    (hm : ∀ g, 0 < (infoOf m g).useCount.den) (gs : List RecGroupId) :
    (sortGroups (sortPreds m) gs).reverse.Pairwise (PriorityGE (sortPreds m)) := by
  have hm2 : ∀ g, 0 < (infoOf (sortPreds m) g).useCount.den := by
    intro g
    rw [(infoOf_sortPreds m g).1]
    exact hm g
  exact sortGroups_rev_pairwise (sortPreds m) hm2 gs

/-- spec-modelled: C7: on a well-formed arena, along the recursion-group
path every group's predecessor list reaches the topological visit sorted
by descending average use count with value ties broken by ascending
insertion index, and the seed list that fixes the order in which the sort
visits the groups is the full set of built groups sorted by that same
key (most used first, earliest inserted first among ties). -/
theorem claim_C7 (env : TypeEnv) (system : TypeSystem) (m : Module)
    (counts : Counts) (infos0 : GroupInfoMap)
    (hwf : env.WF)
    (hbound : ∀ x ∈ keysOf (scanModule env m), x < env.numTypes)
    (hc : getHeapTypeCounts env m = some counts)
    (hbg : buildGroupInfos env system counts = some infos0)
    (g : RecGroupId) :
    (predsOfMap (sortPreds (fixAverages env system infos0)) g).Pairwise
      (PriorityGE (sortPreds (fixAverages env system infos0))) ∧
    ((sortGroups (sortPreds (fixAverages env system infos0))
        ((sortPreds (fixAverages env system infos0)).map (fun q => q.1))).reverse).Pairwise
      (PriorityGE (sortPreds (fixAverages env system infos0))) ∧
    ((sortGroups (sortPreds (fixAverages env system infos0))
        ((sortPreds (fixAverages env system infos0)).map (fun q => q.1))).reverse).Perm
      (gkeys infos0) := by
  have hm : ∀ gg, 0 < (infoOf (fixAverages env system infos0) gg).useCount.den :=
    infoOf_den_pos env system m hwf hbound hc hbg
  refine ⟨predsOfMap_pairwise _ hm g, seeds_pairwise _ hm _, ?_⟩
  refine List.Perm.trans (List.reverse_perm _)
    (List.Perm.trans (sortGroups_perm _ _) ?_)
  have hk : (sortPreds (fixAverages env system infos0)).map (fun q => q.1)
      = gkeys infos0 := by
    show gkeys (sortPreds (fixAverages env system infos0)) = gkeys infos0
    rw [gkeys_sortPreds, gkeys_fixAverages]
  rw [hk]

theorem claim_C7_witness :
    (predsOfMap (sortPreds (fixAverages envB TypeSystem.Isorecursive
        [(10, ⟨0, ⟨5, 1⟩, [11], []⟩), (11, ⟨1, ⟨2, 1⟩, [], []⟩)])) 10).Pairwise
      (PriorityGE (sortPreds (fixAverages envB TypeSystem.Isorecursive
        [(10, ⟨0, ⟨5, 1⟩, [11], []⟩), (11, ⟨1, ⟨2, 1⟩, [], []⟩)]))) ∧
    ((sortGroups (sortPreds (fixAverages envB TypeSystem.Isorecursive
        [(10, ⟨0, ⟨5, 1⟩, [11], []⟩), (11, ⟨1, ⟨2, 1⟩, [], []⟩)]))
        ((sortPreds (fixAverages envB TypeSystem.Isorecursive
          [(10, ⟨0, ⟨5, 1⟩, [11], []⟩), (11, ⟨1, ⟨2, 1⟩, [], []⟩)])).map
          (fun q => q.1))).reverse).Pairwise
      (PriorityGE (sortPreds (fixAverages envB TypeSystem.Isorecursive
        [(10, ⟨0, ⟨5, 1⟩, [11], []⟩), (11, ⟨1, ⟨2, 1⟩, [], []⟩)]))) ∧
    ((sortGroups (sortPreds (fixAverages envB TypeSystem.Isorecursive
        [(10, ⟨0, ⟨5, 1⟩, [11], []⟩), (11, ⟨1, ⟨2, 1⟩, [], []⟩)]))
        ((sortPreds (fixAverages envB TypeSystem.Isorecursive
          [(10, ⟨0, ⟨5, 1⟩, [11], []⟩), (11, ⟨1, ⟨2, 1⟩, [], []⟩)])).map
          (fun q => q.1))).reverse).Perm
      (gkeys [(10, ⟨0, ⟨5, 1⟩, [11], []⟩), (11, ⟨1, ⟨2, 1⟩, [], []⟩)]) :=
  claim_C7 envB TypeSystem.Isorecursive modB [(0, 5), (2, 2), (1, 0)]
    [(10, ⟨0, ⟨5, 1⟩, [11], []⟩), (11, ⟨1, ⟨2, 1⟩, [], []⟩)] envB_wf
    (by decide) (by decide) (by decide) 10

end ModuleUtils
